import Mathlib

/-!
# bfarchive: command-line parsing, POSIX file plumbing and the inflate stream

A shallow embedding of `src/Library/BigFix/ArgParser.cpp`, of `UnixFile::Write` and
`StreamStdIn` from `src/Library/BigFix/UnixFilesystem.cpp`, and of the decoding stream
exercised by `src/Test/InflateStreamTest.cpp`.

Conventions.
* A C string (`const char*`) is the list of its characters before the terminating NUL;
  reading one position past the end yields the terminator (`charAt`).
* A thrown `BigFix::Error` is the `Except.error` branch, carrying the `what()` text.
* System calls are oracles passed as arguments; loops whose termination depends on the
  oracle carry a fuel argument and report `none` when it runs out.
-/

namespace BigFix

/-- The terminator of a C string. -/
def NUL : Char := Char.ofNat 0

/-- The expression `s[i]` on a NUL-terminated string whose contents are `s`. -/
def charAt (s : List Char) (i : Nat) : Char := s.getD i NUL

/-- An exception of class `BigFix::Error`, with the text returned by `what()`. -/
structure Error where
  what : String
  deriving DecidableEq, Repr

/-! ## ArgParser.cpp -/

/-- The nested `ArgParser::Option` record. -/
structure ArgOption where
  shortName : Char
  longName : List Char
  deriving DecidableEq, Repr

/-- The data members of `ArgParser`. -/
structure ArgParser where
  m_options : List ArgOption
  m_setShortOptions : List Char
  m_setLongOptions : List (List Char)
  m_arguments : List (List Char)
  deriving DecidableEq, Repr

namespace ArgParser

/-- A default-constructed parser: all four vectors empty. -/
def fresh : ArgParser := ⟨[], [], [], []⟩

/-- Embeds `ArgParser::AddOption`: `m_options.push_back( { shortName, longName } )`. -/
def AddOption (p : ArgParser) (shortName : Char) (longName : List Char) : ArgParser :=
  { p with m_options := p.m_options ++ [⟨shortName, longName⟩] }

/-- A fresh parser after one `AddOption` call per entry of `opts`, in order. -/
def withOptions (opts : List ArgOption) : ArgParser :=
  opts.foldl (fun p o => AddOption p o.shortName o.longName) fresh

/-- Embeds `ArgParser::HasOption( char )`: `std::find` over `m_setShortOptions`. -/
def HasOptionShort (p : ArgParser) (shortName : Char) : Bool :=
  p.m_setShortOptions.contains shortName

/-- Embeds `ArgParser::HasOption( const std::string& )`: `std::find` over `m_setLongOptions`. -/
def HasOptionLong (p : ArgParser) (longName : List Char) : Bool :=
  p.m_setLongOptions.contains longName

/-- Embeds `ArgParser::Arguments`. -/
def Arguments (p : ArgParser) : List (List Char) := p.m_arguments

/-- Embeds `ArgParser::FindShortOption`: the first registered option whose short name matches. -/
def FindShortOption (p : ArgParser) (option : Char) : Option ArgOption :=
  p.m_options.find? (fun it => it.shortName == option)

/-- Embeds `ArgParser::FindLongOption`: the first registered option whose long name matches. -/
def FindLongOption (p : ArgParser) (option : List Char) : Option ArgOption :=
  p.m_options.find? (fun it => it.longName == option)

/-- Embeds `ArgParser::SetOption`: record both names of the matched option. -/
def SetOption (p : ArgParser) (option : ArgOption) : ArgParser :=
  { p with
    m_setShortOptions := p.m_setShortOptions ++ [option.shortName]
    m_setLongOptions := p.m_setLongOptions ++ [option.longName] }

/-- The text of the exception thrown for an unknown flag; `rest` is the C string the
    pointer `option` designates at the throw. -/
def unknownOption (rest : List Char) : Error :=
  ⟨"Unknown option value: " ++ String.mk rest⟩

/-- Embeds `ArgParser::ParseShortOptions`: `for ( option = options; *option; option++ )`. -/
def ParseShortOptions (p : ArgParser) : List Char → Except Error ArgParser
  | [] => .ok p
  | c :: rest =>
    if c = NUL then .ok p
    else
      match FindShortOption p c with
      | none => .error (unknownOption (c :: rest))
      | some matchingOption => ParseShortOptions (SetOption p matchingOption) rest

/-- Embeds `ArgParser::ParseLongOption`. -/
def ParseLongOption (p : ArgParser) (option : List Char) : Except Error ArgParser :=
  match FindLongOption p option with
  | none => .error (unknownOption option)
  | some matchingOption => .ok (SetOption p matchingOption)

/-- The body of the `for` loop of `ArgParser::Parse`, run over `argv[i], argv[i+1], ...`. -/
def ParseFrom (p : ArgParser) : List (List Char) → Except Error ArgParser
  | [] => .ok p
  | a :: rest =>
    if charAt a 0 = '-' ∧ charAt a 1 = '-' then
      match ParseLongOption p (a.drop 2) with
      | .error e => .error e
      | .ok p1 => ParseFrom p1 rest
    else if charAt a 0 = '-' ∧ charAt a 1 ≠ NUL then
      match ParseShortOptions p (a.drop 1) with
      | .error e => .error e
      | .ok p1 => ParseFrom p1 rest
    else
      ParseFrom { p with m_arguments := p.m_arguments ++ [a] } rest

/-- Embeds `ArgParser::Parse( argc, argv )` with `argc = argv.length`: the loop starts at `i = 1`. -/
def Parse (p : ArgParser) (argv : List (List Char)) : Except Error ArgParser :=
  ParseFrom p (argv.drop 1)

end ArgParser

/-- Every entry of `argv` is the contents of a NUL-terminated string. -/
def ValidArgv (argv : List (List Char)) : Prop := ∀ a ∈ argv, NUL ∉ a

instance (argv : List (List Char)) : Decidable (ValidArgv argv) := by
  unfold ValidArgv; infer_instance


/-- Whether a call ended by throwing. -/
def throws {ε α : Type} : Except ε α → Bool
  | .error _ => true
  | .ok _ => false

namespace ArgParser

/-- The test applied to an entry of `argv`: it does not begin with `-`, or it is
    exactly `-`. -/
def isPlainArgument (a : List Char) : Bool :=
  !(a.head? == some '-') || a == ['-']

/-- An entry that begins with `--` whose remainder equals no registered long name. -/
def isUnknownLongFlag (opts : List ArgOption) (a : List Char) : Bool :=
  a.take 2 == ['-', '-'] && opts.all (fun o => o.longName != a.drop 2)

/-- An entry that begins with `-`, continues with a character other than `-`, and has
    after the leading `-` some character that equals no registered short name. -/
def isUnknownShortFlag (opts : List ArgOption) (a : List Char) : Bool :=
  a.head? == some '-' && (a.drop 1).head?.any (fun c => c != '-') &&
    (a.drop 1).any (fun x => opts.all (fun o => o.shortName != x))

/-- An unrecognized flag, of either kind. -/
def isUnrecognizedFlag (opts : List ArgOption) (a : List Char) : Bool :=
  isUnknownLongFlag opts a || isUnknownShortFlag opts a

/-- A single-dash cluster: begins with `-`, and the second character exists and is not
    `-`. -/
def isCluster (a : List Char) : Bool :=
  a.head? == some '-' && (a.drop 1).head?.any (fun c => c != '-')

/-- The entry selects the option `(s, l)`: it is `--` followed by `l`, or a single-dash
    cluster containing `s` after the dash. -/
def selects (s : Char) (l : List Char) (a : List Char) : Bool :=
  a == '-' :: '-' :: l || (isCluster a && (a.drop 1).contains s)

/-- The entry `a` makes `Parse` call `SetOption` on the option `o`: through
    `ParseLongOption` or through `ParseShortOptions`. -/
def Hit (p : ArgParser) (a : List Char) (o : ArgOption) : Prop :=
  (a.take 2 = ['-', '-'] ∧ FindLongOption p (a.drop 2) = some o) ∨
  (isCluster a = true ∧ ∃ c ∈ a.drop 1, FindShortOption p c = some o)

end ArgParser

/-! ## UnixFilesystem.cpp -/

/-- An octet (`uint8_t`). -/
abbrev Byte := Nat

/-- What a system call hands back: its return value, the value left in `errno`, and for
    `read` the contents of the caller's buffer after the call. -/
structure SysResult where
  ret : Int
  errno : Int
  buffer : List Byte
  deriving DecidableEq, Repr

/-- Embeds `FileErrorString( what, path, errnum )`; `strerror` stands for `StringError`, the
    wrapper of the C library's `strerror_r`. -/
def FileErrorString (strerror : Int → String) (what path : String) (errnum : Int) : String :=
  what ++ " " ++ path ++ ": " ++ strerror errnum

/-- One call of `write( m_fd, start, end - start )`: the bytes offered and the result. -/
structure WriteCall where
  offered : List Byte
  result : SysResult
  deriving DecidableEq, Repr

namespace UnixFile

/-- The `while ( start != end )` loop of `UnixFile::Write`. `start` is the offset of the
    pointer into `data`, `end` is `data.length`, `write i buf` is the result of the call
    number `i` when offered `buf`, and `calls` records the calls made so far. The result is
    `none` when the fuel runs out before the loop exits. -/
def WriteLoop (strerror : Int → String) (m_path : String)
    (write : Nat → List Byte → SysResult) (data : List Byte) :
    Nat → Nat → List WriteCall → Option (Except Error Unit × List WriteCall)
  | 0, start, calls => if start = data.length then some (.ok (), calls) else none
  | fuel + 1, start, calls =>
    if start = data.length then some (.ok (), calls)
    else
      let nwritten := write calls.length (data.drop start)
      let calls1 := calls ++ [⟨data.drop start, nwritten⟩]
      if nwritten.ret < 0 then
        some (.error ⟨FileErrorString strerror "Failed to write file" m_path nwritten.errno⟩,
          calls1)
      else WriteLoop strerror m_path write data fuel (start + nwritten.ret.toNat) calls1

/-- Embeds `UnixFile::Write( DataRef data )`. -/
def Write (strerror : Int → String) (m_path : String)
    (write : Nat → List Byte → SysResult) (data : List Byte) (fuel : Nat) :
    Option (Except Error Unit × List WriteCall) :=
  WriteLoop strerror m_path write data fuel 0 []

end UnixFile

/-- A call received by a `Stream`: `Write( data )` or `End()`. -/
inductive StreamCall where
  | write (data : List Byte)
  | finish
  deriving DecidableEq, Repr

/-- The `while ( true )` loop of `StreamStdIn` followed by `stream.End()`. `read i` is the
    result of the call number `i` of `read( 0, buffer, sizeof( buffer ) )`; the stream is a
    recorder of the calls it receives, none of which throws. The result is `none` when
    the fuel runs out before the loop exits. -/
def StreamStdInLoop (strerror : Int → String) (read : Nat → SysResult) :
    Nat → Nat → List StreamCall → Option (Except Error Unit × List StreamCall)
  | 0, _, _ => none
  | fuel + 1, i, calls =>
    let nread := read i
    if nread.ret < 0 then
      some (.error ⟨"Failed to read from stdin: " ++ strerror nread.errno⟩, calls)
    else if nread.ret = 0 then
      some (.ok (), calls ++ [.finish])
    else
      StreamStdInLoop strerror read fuel (i + 1)
        (calls ++ [.write (nread.buffer.take nread.ret.toNat)])

/-- Embeds `StreamStdIn( Stream& stream )`. -/
def StreamStdIn (strerror : Int → String) (read : Nat → SysResult) (fuel : Nat) :
    Option (Except Error Unit × List StreamCall) :=
  StreamStdInLoop strerror read fuel 0 []

/-- The chunk passed to `stream.Write` after the read number `i`:
    `DataRef( buffer, buffer + nread )`. -/
def readChunk (read : Nat → SysResult) (i : Nat) : List Byte :=
  (read i).buffer.take (read i).ret.toNat

/-! ## InflateStream

`InflateStream.cpp` is not among the sources; only its tests
(`src/Test/InflateStreamTest.cpp`) are. The stream is modelled from the specification,
and the inflate engine (zlib) is an argument of the model. -/

/-- The 12-byte signature `##SC001` followed by five zero bytes, as written in the byte
    arrays of `InflateStreamTest.cpp`. -/
def signature : List Byte :=
  [0x23, 0x23, 0x53, 0x43, 0x30, 0x30, 0x31, 0x00, 0x00, 0x00, 0x00, 0x00]

/-- Modelled from the spec: the inflate engine, "an opaque, swappable codec dependency"
    that is "consumed incrementally". It is a deterministic transducer of the byte stream:
    `init` is the result of initialisation (`none` when it fails), `step` consumes one
    input byte and yields the plaintext produced (`none` when the codec reports malformed
    data), and `atEnd` tells whether the codec has reported its clean end-of-stream. -/
structure Codec (σ : Type) where
  init : Option σ
  step : σ → Byte → Option (σ × List Byte)
  atEnd : σ → Bool

/-- The codec run over a list of bytes: final state and plaintext produced, or `none` as
    soon as a byte is rejected. -/
def Codec.run {σ : Type} (c : Codec σ) : σ → List Byte → Option (σ × List Byte)
  | z, [] => some (z, [])
  | z, b :: rest =>
    match c.step z b with
    | none => none
    | some (z1, out) =>
      match c.run z1 rest with
      | none => none
      | some (z2, out2) => some (z2, out ++ out2)

/-- Modelled from the spec: the error taxonomy of section 7. `IncompletePreambleError` is
    the error of `End()` after all of the signature but its last byte, which the
    taxonomy does not name but the test `ThrowsIfEndedInChecksum` requires (section 9
    notes that it is classified apart from the truncated-stream error). -/
inductive StreamError where
  | CodecInitError
  | DecodeError
  | TruncatedStreamError
  | InvalidStateError
  | IncompletePreambleError
  deriving DecidableEq, Repr

/-- Modelled from the spec: the mode of the decoding stream (section 3). -/
inductive Mode where
  | Undetermined
  | Raw
  | Compressed
  | Finished
  | Failed
  deriving DecidableEq, Repr

/-- Modelled from the spec: the decoding stream of section 3: its mode, the look-ahead
    buffer, the handle of the inflate engine, and the downstream sink, represented by
    the calls it has received so far. -/
structure InflateStream (σ : Type) where
  mode : Mode
  buffer : List Byte
  engine : σ
  sink : List StreamCall

/-- The bytes a sink has received, in order. -/
def delivered : List StreamCall → List Byte
  | [] => []
  | .write d :: rest => d ++ delivered rest
  | .finish :: rest => delivered rest

/-- The number of `End()` calls a sink has received. -/
def endCount : List StreamCall → Nat
  | [] => 0
  | .write _ :: rest => endCount rest
  | .finish :: rest => endCount rest + 1

namespace InflateStream

variable {σ : Type}

/-- Modelled from the spec: construction of the stream. The engine is initialised here:
    the test `InitFails` expects the constructor itself to throw when `inflateInit`
    fails (section 4.2, "failed to initialize the compression engine"). -/
def create (c : Codec σ) : Except StreamError (InflateStream σ) :=
  match c.init with
  | none => .error .CodecInitError
  | some z => .ok ⟨.Undetermined, [], z, []⟩

/-- Modelled from the spec: `Feed(bytes)` of section 4.2. The codec is run over the
    bytes in order and every piece of plaintext is forwarded to the sink as it is
    produced; on malformed data the stream moves to Failed and signals `DecodeError`,
    the output already forwarded staying delivered. -/
def Feed (c : Codec σ) (s : InflateStream σ) :
    List Byte → InflateStream σ × Option StreamError
  | [] => (s, none)
  | b :: rest =>
    match c.step s.engine b with
    | none => ({ s with mode := .Failed }, some .DecodeError)
    | some (z, out) =>
      Feed c { s with engine := z,
                      sink := if out = [] then s.sink else s.sink ++ [.write out] } rest

/-- Modelled from the spec: the sniffer of section 4.1, run over the bytes of one `Write`
    call while the mode is Undetermined. Each byte is appended to the look-ahead buffer.
    On the first difference from the signature the mode becomes Raw, the buffered bytes
    are flushed to the sink and the remaining bytes of the call follow unmodified. When
    the buffer equals the whole signature the mode becomes Compressed, the buffer is
    discarded and the remaining bytes of the call go to the inflate adapter. -/
def Sniff (c : Codec σ) (s : InflateStream σ) :
    List Byte → InflateStream σ × Option StreamError
  | [] => (s, none)
  | b :: rest =>
    if signature.get? s.buffer.length = some b then
      if s.buffer.length + 1 = signature.length then
        Feed c { s with mode := .Compressed, buffer := [] } rest
      else
        Sniff c { s with buffer := s.buffer ++ [b] } rest
    else
      ({ s with mode := .Raw, buffer := [],
                sink := if rest = [] then s.sink ++ [.write (s.buffer ++ [b])]
                        else s.sink ++ [.write (s.buffer ++ [b]), .write rest] }, none)

/-- Modelled from the spec: `Write(bytes)` on the producer side (sections 4 and 6). In
    Raw mode the bytes are copied verbatim to the sink; a terminal stream signals
    `InvalidStateError`. -/
def Write (c : Codec σ) (s : InflateStream σ) (data : List Byte) :
    InflateStream σ × Option StreamError :=
  match s.mode with
  | .Undetermined => Sniff c s data
  | .Raw => ({ s with sink := s.sink ++ [.write data] }, none)
  | .Compressed => Feed c s data
  | .Finished => (s, some .InvalidStateError)
  | .Failed => (s, some .InvalidStateError)

/-- Modelled from the spec: `End()` (sections 4.1, 4.2 and the state machine). In Raw
    mode the sink is finalized. In Compressed mode the sink is finalized only when the
    codec has reported its end-of-stream; otherwise `TruncatedStreamError` is signalled
    and the sink's `End()` is not called. In Undetermined mode the buffered bytes are a
    short raw stream: they are flushed unmodified and the sink is finalized (section
    4.1). The one exception is the buffer that holds the whole signature but its last
    byte: that is the input of the repository's test `ThrowsIfEndedInChecksum`, which
    expects `End()` to throw, so the call signals an error there. The sources pin no
    other buffer, and the test, run on a sink that discards its input, does not show what
    the sink receives in that case; the model leaves it untouched. -/
def End (c : Codec σ) (s : InflateStream σ) : InflateStream σ × Option StreamError :=
  match s.mode with
  | .Undetermined =>
    if s.buffer.length + 1 = signature.length then
      ({ s with mode := .Failed }, some .IncompletePreambleError)
    else
      ({ s with mode := .Finished, buffer := [],
                sink := s.sink ++ [.write s.buffer, .finish] }, none)
  | .Raw => ({ s with mode := .Finished, sink := s.sink ++ [.finish] }, none)
  | .Compressed =>
    if c.atEnd s.engine then
      ({ s with mode := .Finished, sink := s.sink ++ [.finish] }, none)
    else ({ s with mode := .Failed }, some .TruncatedStreamError)
  | .Finished => (s, some .InvalidStateError)
  | .Failed => (s, some .InvalidStateError)

/-- Consecutive `Write` calls, one per chunk, stopping at the first one that signals an
    error (the exception leaves the caller's loop). -/
def WriteAll (c : Codec σ) (s : InflateStream σ) :
    List (List Byte) → InflateStream σ × Option StreamError
  | [] => (s, none)
  | d :: rest =>
    match Write c s d with
    | (s1, none) => WriteAll c s1 rest
    | (s1, some e) => (s1, some e)

/-- Consecutive `Write` calls followed by `End()`, as the test helper
    `WriteOneByOneAndEnd` does with one-byte chunks. -/
def WriteAllAndEnd (c : Codec σ) (s : InflateStream σ) (chunks : List (List Byte)) :
    InflateStream σ × Option StreamError :=
  match WriteAll c s chunks with
  | (s1, none) => End c s1
  | (s1, some e) => (s1, some e)

end InflateStream

/-- The sequence differs from the signature at some offset below 12 that it reaches. -/
def differsFromSignature (input : List Byte) : Bool :=
  (List.range signature.length).any
    (fun i => i < input.length && input.get? i != signature.get? i)

/-! ## A reference inflate engine

zlib is an external library (the stream only links against it). The codec below decodes
the zlib container (RFC 1950) around a deflate stream (RFC 1951); it instantiates `Codec`
for the byte arrays of `InflateStreamTest.cpp`. -/

namespace Zlib

/-- The result of a decoding step on input that may stop early: a value, a request for
    more input, or a rejection of the data. -/
inductive Res (α : Type) where
  | ok (a : α)
  | more
  | bad
  deriving Repr

/-- The eight bits of a byte, least significant first (RFC 1951, 3.1.1). -/
def bitsOfByte (b : Nat) : List Bool := (List.range 8).map (fun i => b.testBit i)

/-- The bit stream of a byte sequence. -/
def bitsOf (bytes : List Nat) : List Bool := (bytes.map bitsOfByte).flatten

/-- Read an `n`-bit integer, least significant bit first. -/
def readBits : Nat → List Bool → Res (Nat × List Bool)
  | 0, bs => .ok (0, bs)
  | _ + 1, [] => .more
  | n + 1, b :: bs =>
    match readBits n bs with
    | .ok (v, r) => .ok (b.toNat + 2 * v, r)
    | .more => .more
    | .bad => .bad

/-- A canonical Huffman code: `count[i]` is the number of symbols of length `i + 1`
    (lengths 1 to 15), `symbol` lists the symbols by increasing length, then value. -/
structure Huffman where
  count : List Nat
  symbol : List Nat
  deriving Repr

/-- Build the canonical code of a list of code lengths (RFC 1951, 3.2.2). -/
def construct (lengths : List Nat) : Huffman :=
  { count := (List.range 15).map (fun i => lengths.count (i + 1))
    symbol := ((List.range 15).map (fun i =>
      (lengths.enum.filter (fun p => p.2 == i + 1)).map Prod.fst)).flatten }

/-- The number of unused codes after assigning the lengths `1, 2, ...` in turn: negative
    as soon as the set is over-subscribed, positive at the end when it is incomplete. -/
def codeLeft : List Nat → Int → Int
  | [], left => left
  | c :: cs, left =>
    let l := 2 * left - c
    if l < 0 then l else codeLeft cs l

/-- Completeness of a set of code lengths: 0 when complete (or when no symbol is coded),
    negative when over-subscribed, positive when incomplete. -/
def completeness (lengths : List Nat) : Int :=
  if lengths.all (fun l => l == 0) then 0 else codeLeft (construct lengths).count 1

/-- Decode one symbol, reading one bit per code length. -/
def decodeAux (symbol : List Nat) :
    List Nat → Nat → Nat → Nat → List Bool → Res (Nat × List Bool)
  | [], _, _, _, _ => .bad
  | _ :: _, _, _, _, [] => .more
  | cnt :: cs, code, first, index, b :: bs =>
    if code + b.toNat < first + cnt then
      match symbol.get? (index + (code + b.toNat - first)) with
      | some s => .ok (s, bs)
      | none => .bad
    else
      decodeAux symbol cs (2 * (code + b.toNat)) (2 * (first + cnt)) (index + cnt) bs

/-- Decode one symbol of the code `h`. -/
def decodeSym (h : Huffman) (bits : List Bool) : Res (Nat × List Bool) :=
  decodeAux h.symbol h.count 0 0 0 bits

/-- The number of extra bits of the length symbol `257 + i`, `i ≤ 28` (RFC 1951, 3.2.5):
    none for the first eight and for the last, then one more every four symbols. -/
def lengthExtra (i : Nat) : Option Nat :=
  if i < 8 then some 0
  else if i < 28 then some (i / 4 - 1)
  else if i = 28 then some 0
  else none

/-- The base match length of the length symbol `257 + i`, `i ≤ 28`. -/
def lengthBase (i : Nat) : Option Nat :=
  if i < 8 then some (3 + i)
  else if i < 28 then some (3 + (4 + i % 4) * 2 ^ (i / 4 - 1))
  else if i = 28 then some 258
  else none

/-- The number of extra bits of the distance symbol `d`, `d ≤ 29`: none for the first
    four, then one more every two symbols. -/
def distExtra (d : Nat) : Option Nat :=
  if d < 4 then some 0
  else if d < 30 then some (d / 2 - 1)
  else none

/-- The base distance of the distance symbol `d`, `d ≤ 29`. -/
def distBase (d : Nat) : Option Nat :=
  if d < 4 then some (1 + d)
  else if d < 30 then some (1 + (2 + d % 2) * 2 ^ (d / 2 - 1))
  else none

/-- The result of decoding part of the stream: the remaining bits and the output so far
    (most recent byte first), a request for more input with the output produced until
    then, or a rejection. -/
inductive Step where
  | ok (bits : List Bool) (out : List Nat)
  | more (out : List Nat)
  | bad
  deriving Repr

/-- Append `len` bytes copied from `dist` bytes back; `out` is most recent byte first. -/
def copyBack : Nat → Nat → List Nat → List Nat
  | 0, _, out => out
  | n + 1, dist, out => copyBack n dist (out.getD (dist - 1) 0 :: out)

/-- Decode literal and match symbols until the end-of-block symbol (RFC 1951, 3.2.3). -/
def codes (lencode distcode : Huffman) : Nat → List Bool → List Nat → Step
  | 0, _, out => .more out
  | fuel + 1, bits, out =>
    match decodeSym lencode bits with
    | .more => .more out
    | .bad => .bad
    | .ok (sym, bits1) =>
      if sym < 256 then codes lencode distcode fuel bits1 (sym :: out)
      else if sym = 256 then .ok bits1 out
      else
        match lengthBase (sym - 257), lengthExtra (sym - 257) with
        | some lb, some le =>
          match readBits le bits1 with
          | .more => .more out
          | .bad => .bad
          | .ok (e1, bits2) =>
            match decodeSym distcode bits2 with
            | .more => .more out
            | .bad => .bad
            | .ok (dsym, bits3) =>
              match distBase dsym, distExtra dsym with
              | some db, some de =>
                match readBits de bits3 with
                | .more => .more out
                | .bad => .bad
                | .ok (e2, bits4) =>
                  if db + e2 > out.length then .bad
                  else codes lencode distcode fuel bits4 (copyBack (lb + e1) (db + e2) out)
              | _, _ => .bad
        | _, _ => .bad

/-- Copy `n` stored bytes to the output. -/
def storedBytes : Nat → List Bool → List Nat → Step
  | 0, bits, out => .ok bits out
  | n + 1, bits, out =>
    match readBits 8 bits with
    | .ok (b, bits1) => storedBytes n bits1 (b :: out)
    | .more => .more out
    | .bad => .bad

/-- A stored block: skip to the byte boundary, read LEN and NLEN, copy LEN bytes. -/
def stored (bits : List Bool) (out : List Nat) : Step :=
  match readBits 16 (bits.drop (bits.length % 8)) with
  | .more => .more out
  | .bad => .bad
  | .ok (len, bits1) =>
    match readBits 16 bits1 with
    | .more => .more out
    | .bad => .bad
    | .ok (nlen, bits2) =>
      if len + nlen ≠ 65535 then .bad else storedBytes len bits2 out

/-- The code lengths of the fixed literal/length code (RFC 1951, 3.2.6). -/
def fixedLengths : List Nat :=
  List.replicate 144 8 ++ List.replicate 112 9 ++ List.replicate 24 7 ++ List.replicate 8 8

/-- A block compressed with the fixed codes. -/
def fixed (fuel : Nat) (bits : List Bool) (out : List Nat) : Step :=
  codes (construct fixedLengths) (construct (List.replicate 30 5)) fuel bits out

/-- The order in which the code length code lengths are stored (RFC 1951, 3.2.7). -/
def clOrder : List Nat :=
  [16, 17, 18, 0, 8] ++ ((List.range 7).map (fun k => [7 - k, 9 + k])).flatten

/-- Read `n` three-bit code length code lengths. -/
def readClens : Nat → List Bool → Res (List Nat × List Bool)
  | 0, bits => .ok ([], bits)
  | n + 1, bits =>
    match readBits 3 bits with
    | .more => .more
    | .bad => .bad
    | .ok (v, bits1) =>
      match readClens n bits1 with
      | .ok (vs, bits2) => .ok (v :: vs, bits2)
      | .more => .more
      | .bad => .bad

/-- Place the code length code lengths at their positions: entry `s` of the result is the
    length of symbol `s` of the code length alphabet. -/
def placeClens (vals : List Nat) : List Nat :=
  (List.range 19).map (fun s =>
    match clOrder.indexOf? s with
    | some i => vals.getD i 0
    | none => 0)

/-- Read the `total` literal/length and distance code lengths, run-length coded with the
    code length code; `acc` holds the lengths read so far, last first. -/
def readLengths (lencode : Huffman) (total : Nat) :
    Nat → List Bool → List Nat → Res (List Nat × List Bool)
  | 0, _, _ => .more
  | fuel + 1, bits, acc =>
    if acc.length ≥ total then .ok (acc.reverse, bits)
    else
      match decodeSym lencode bits with
      | .more => .more
      | .bad => .bad
      | .ok (sym, bits1) =>
        if sym < 16 then readLengths lencode total fuel bits1 (sym :: acc)
        else if sym = 16 then
          match acc with
          | [] => .bad
          | prev :: _ =>
            match readBits 2 bits1 with
            | .more => .more
            | .bad => .bad
            | .ok (r, bits2) =>
              if acc.length + (3 + r) > total then .bad
              else readLengths lencode total fuel bits2 (List.replicate (3 + r) prev ++ acc)
        else if sym = 17 then
          match readBits 3 bits1 with
          | .more => .more
          | .bad => .bad
          | .ok (r, bits2) =>
            if acc.length + (3 + r) > total then .bad
            else readLengths lencode total fuel bits2 (List.replicate (3 + r) 0 ++ acc)
        else
          match readBits 7 bits1 with
          | .more => .more
          | .bad => .bad
          | .ok (r, bits2) =>
            if acc.length + (11 + r) > total then .bad
            else readLengths lencode total fuel bits2 (List.replicate (11 + r) 0 ++ acc)

/-- A code is usable when it is complete, or incomplete with all its codes of length 1. -/
def usable (lengths : List Nat) : Bool :=
  completeness lengths == 0 ||
    (completeness lengths > 0 && lengths.all (fun l => l == 0 || l == 1))

/-- A block compressed with dynamic codes (RFC 1951, 3.2.7). -/
def dynamic (fuel : Nat) (bits : List Bool) (out : List Nat) : Step :=
  match readBits 5 bits with
  | .more => .more out
  | .bad => .bad
  | .ok (hlit, bits1) =>
    match readBits 5 bits1 with
    | .more => .more out
    | .bad => .bad
    | .ok (hdist, bits2) =>
      match readBits 4 bits2 with
      | .more => .more out
      | .bad => .bad
      | .ok (hclen, bits3) =>
        if hlit + 257 > 286 ∨ hdist + 1 > 30 then .bad
        else
          match readClens (hclen + 4) bits3 with
          | .more => .more out
          | .bad => .bad
          | .ok (vals, bits4) =>
            if completeness (placeClens vals) ≠ 0 then .bad
            else
              match readLengths (construct (placeClens vals)) (hlit + 257 + (hdist + 1))
                  fuel bits4 [] with
              | .more => .more out
              | .bad => .bad
              | .ok (lens, bits5) =>
                if lens.getD 256 0 = 0 then .bad
                else if !usable (lens.take (hlit + 257)) then .bad
                else if !usable (lens.drop (hlit + 257)) then .bad
                else
                  codes (construct (lens.take (hlit + 257)))
                    (construct (lens.drop (hlit + 257))) fuel bits5 out

/-- The sequence of deflate blocks, up to and including the final one. -/
def blocks : Nat → List Bool → List Nat → Step
  | 0, _, out => .more out
  | fuel + 1, bits, out =>
    match readBits 1 bits with
    | .more => .more out
    | .bad => .bad
    | .ok (last, bits1) =>
      match readBits 2 bits1 with
      | .more => .more out
      | .bad => .bad
      | .ok (type, bits2) =>
        match (if type = 0 then stored bits2 out
               else if type = 1 then fixed (bits2.length + 1) bits2 out
               else if type = 2 then dynamic (bits2.length + 1) bits2 out
               else Step.bad) with
        | .more out1 => .more out1
        | .bad => .bad
        | .ok bits3 out1 => if last = 1 then .ok bits3 out1 else blocks fuel bits3 out1

/-- The Adler-32 checksum (RFC 1950, 8.2) as the pair of its two 16-bit sums. -/
def adler32 (data : List Nat) : Nat :=
  let r := data.foldl (fun (p : Nat × Nat) b =>
    ((p.1 + b) % 65521, (p.2 + (p.1 + b) % 65521) % 65521)) (1, 0)
  r.2 * 65536 + r.1

/-- What the engine has made of the compressed bytes received so far. -/
inductive Outcome where
  | done (out : List Nat)
  | more (out : List Nat)
  | bad
  deriving Repr

/-- Decode a zlib stream from its first byte: header (RFC 1950, 2.2), deflate blocks,
    Adler-32 trailer. A header that asks for a preset dictionary is rejected once the
    dictionary identifier has arrived, since none is ever supplied. -/
def inflate (bytes : List Nat) : Outcome :=
  match bytes with
  | cmf :: flg :: rest =>
    if (cmf * 256 + flg) % 31 ≠ 0 then .bad
    else if cmf % 16 ≠ 8 then .bad
    else if cmf / 16 > 7 then .bad
    else if flg / 32 % 2 = 1 then (if rest.length < 4 then .more [] else .bad)
    else
      match blocks (8 * rest.length + 1) (bitsOf rest) [] with
      | .more out => .more out.reverse
      | .bad => .bad
      | .ok bits out =>
        match readBits 8 (bits.drop (bits.length % 8)) with
        | .ok (a3, t1) =>
          match readBits 8 t1 with
          | .ok (a2, t2) =>
            match readBits 8 t2 with
            | .ok (a1, t3) =>
              match readBits 8 t3 with
              | .ok (a0, _) =>
                if ((a3 * 256 + a2) * 256 + a1) * 256 + a0 = adler32 out.reverse then
                  .done out.reverse
                else .bad
              | _ => .more out.reverse
            | _ => .more out.reverse
          | _ => .more out.reverse
        | _ => .more out.reverse
  | _ => .more []

/-- The state of the engine: the compressed bytes consumed, the number of plaintext bytes
    already handed out, and whether the end of the stream has been reported. -/
structure State where
  consumed : List Byte
  emitted : Nat
  finished : Bool
  deriving DecidableEq, Repr

/-- The reference engine as a `Codec`. Initialisation always succeeds; each byte is
    decoded in the context of the bytes before it and the new plaintext is handed out;
    bytes offered after the end of the stream are left alone. -/
def codec : Codec State where
  init := some ⟨[], 0, false⟩
  step := fun s b =>
    if s.finished then some (s, [])
    else
      match inflate (s.consumed ++ [b]) with
      | .bad => none
      | .more out => some (⟨s.consumed ++ [b], out.length, false⟩, out.drop s.emitted)
      | .done out => some (⟨s.consumed ++ [b], out.length, true⟩, out.drop s.emitted)
  atEnd := fun s => s.finished

end Zlib

/-! ## Data of `InflateStreamTest.cpp` -/

/-- The bytes of an ASCII string literal, as `DataRef( "..." )` holds them. -/
def ascii (s : String) : List Byte := s.toList.map Char.toNat

/-- The chunking of the test helper `WriteOneByOneAndEnd`: one `Write` per byte. -/
def oneByOne (data : List Byte) : List (List Byte) := data.map (fun b => [b])

/-- The deflate bytes of `DecompressHelloWorld`, after the signature. -/
def helloWorldDeflate : List Byte :=
  [0x78, 0x9c, 0xf3, 0x48, 0xcd, 0xc9, 0xc9, 0xd7, 0x51, 0x28, 0xcf, 0x2f,
   0xca, 0x49, 0x51, 0x04, 0x00, 0x20, 0x5e, 0x04, 0x8a]

/-- The deflate bytes of `DecompressEmpty`, after the signature. -/
def emptyDeflate : List Byte := [0x78, 0x9c, 0x03, 0x00, 0x00, 0x00, 0x00, 0x01]

/-- The deflate bytes of `ThrowsIfCompressedDataIsIncomplete`, after the signature. -/
def incompleteDeflate : List Byte := [0x78, 0x9c, 0x03, 0x00, 0x00, 0x00, 0x00]

/-- A stream freshly constructed over the reference engine and an empty sink. -/
def freshZlibStream : InflateStream Zlib.State := ⟨.Undetermined, [], ⟨[], 0, false⟩, []⟩

/-! ## ArgParser: lemmas -/

namespace ArgParser

theorem SetOption_options (p : ArgParser) (o : ArgOption) :
    (SetOption p o).m_options = p.m_options := rfl

theorem NUL_ne_dash : NUL ≠ '-' := by decide

theorem FindShortOption_congr (p q : ArgParser) (h : q.m_options = p.m_options) (c : Char) :
    FindShortOption q c = FindShortOption p c := by
  simp [FindShortOption, h]

theorem FindLongOption_congr (p q : ArgParser) (h : q.m_options = p.m_options)
    (t : List Char) : FindLongOption q t = FindLongOption p t := by
  simp [FindLongOption, h]

/-- The long-option branch of `Parse` is taken exactly on entries starting with `--`. -/
theorem longBranch_iff (a : List Char) :
    (charAt a 0 = '-' ∧ charAt a 1 = '-') ↔ a.take 2 = ['-', '-'] := by
  rcases a with _ | ⟨c, _ | ⟨d, t⟩⟩
  · simp [charAt, NUL_ne_dash]
  · simp [charAt, NUL_ne_dash]
  · simp [charAt]

/-- The short-option branch of `Parse` is taken exactly on single-dash clusters. -/
theorem shortBranch_iff (a : List Char) (ha : NUL ∉ a) :
    (¬ (charAt a 0 = '-' ∧ charAt a 1 = '-') ∧ charAt a 0 = '-' ∧ charAt a 1 ≠ NUL)
      ↔ isCluster a = true := by
  rcases a with _ | ⟨c, _ | ⟨d, t⟩⟩
  · simp [charAt, isCluster, NUL_ne_dash]
  · simp [charAt, isCluster]
  · have hd : d ≠ NUL := by
      intro h; apply ha; simp [h]
    simp [charAt, isCluster]
    constructor
    · rintro ⟨h1, h2, _⟩; exact ⟨h2, h1 h2⟩
    · rintro ⟨h1, h2⟩; exact ⟨fun _ => h2, h1, hd⟩

theorem cluster_not_long (a : List Char) (h : isCluster a = true) :
    a.take 2 ≠ ['-', '-'] := by
  rcases a with _ | ⟨c, _ | ⟨d, t⟩⟩
  · simp
  · simp
  · simp [isCluster] at h
    simp; intro _; exact h.2

theorem plain_iff (a : List Char) :
    isPlainArgument a = true ↔ (a.take 2 ≠ ['-', '-'] ∧ isCluster a = false) := by
  rcases a with _ | ⟨c, _ | ⟨d, t⟩⟩
  · simp [isPlainArgument, isCluster]
  · simp [isPlainArgument, isCluster]
  · simp [isPlainArgument, isCluster]
    constructor
    · intro h; exact ⟨fun hc => absurd hc h, fun hc => absurd hc h⟩
    · rintro ⟨h1, h2⟩ hc; exact h1 hc (h2 hc)

theorem findShort_none_iff (p : ArgParser) (c : Char) :
    FindShortOption p c = none ↔ p.m_options.all (fun o => o.shortName != c) = true := by
  simp [FindShortOption, List.find?_eq_none]

theorem findLong_none_iff (p : ArgParser) (t : List Char) :
    FindLongOption p t = none ↔ p.m_options.all (fun o => o.longName != t) = true := by
  simp [FindLongOption, List.find?_eq_none]

theorem ParseShortOptions_preserves (cs : List Char) :
    ∀ (p p1 : ArgParser), ParseShortOptions p cs = .ok p1 →
      p1.m_options = p.m_options ∧ p1.m_arguments = p.m_arguments := by
  induction cs with
  | nil => intro p p1 h; simp [ParseShortOptions] at h; subst h; exact ⟨rfl, rfl⟩
  | cons c rest ih =>
    intro p p1 h
    unfold ParseShortOptions at h
    split at h
    · simp at h; subst h; exact ⟨rfl, rfl⟩
    · split at h
      · simp at h
      · have := ih _ _ h
        simpa [SetOption] using this

theorem ParseLongOption_preserves (p p1 : ArgParser) (t : List Char)
    (h : ParseLongOption p t = .ok p1) :
    p1.m_options = p.m_options ∧ p1.m_arguments = p.m_arguments := by
  unfold ParseLongOption at h
  split at h
  · simp at h
  · simp at h; subst h; exact ⟨rfl, rfl⟩

theorem ParseShortOptions_throws (cs : List Char) (hcs : NUL ∉ cs) :
    ∀ p : ArgParser, throws (ParseShortOptions p cs)
      = cs.any (fun x => p.m_options.all (fun o => o.shortName != x)) := by
  induction cs with
  | nil => intro p; simp [ParseShortOptions, throws]
  | cons c rest ih =>
    intro p
    have hc : c ≠ NUL := by intro h; apply hcs; simp [h]
    have hrest : NUL ∉ rest := fun h => hcs (List.mem_cons_of_mem _ h)
    unfold ParseShortOptions
    rw [if_neg hc]
    cases hf : FindShortOption p c with
    | none =>
      have := (findShort_none_iff p c).1 hf
      simp only [throws, List.any_cons, this, Bool.true_or]
    | some m =>
      have hne : ¬ (p.m_options.all (fun o => o.shortName != c) = true) := by
        rw [← findShort_none_iff, hf]; simp
      simp only [ih hrest, SetOption_options, List.any_cons]
      rw [Bool.not_eq_true] at hne
      rw [hne, Bool.false_or]

theorem ParseLongOption_throws (p : ArgParser) (t : List Char) :
    throws (ParseLongOption p t) = p.m_options.all (fun o => o.longName != t) := by
  unfold ParseLongOption
  cases hf : FindLongOption p t with
  | none =>
    have := (findLong_none_iff p t).1 hf
    simp only [throws, this]
  | some m =>
    have hne : ¬ (p.m_options.all (fun o => o.longName != t) = true) := by
      rw [← findLong_none_iff, hf]; simp
    rw [Bool.not_eq_true] at hne
    simp only [throws, hne]

theorem drop_valid (a : List Char) (n : Nat) (ha : NUL ∉ a) : NUL ∉ a.drop n :=
  fun h => ha (List.mem_of_mem_drop h)

theorem isUnrecognized_long (opts : List ArgOption) (a : List Char)
    (h : a.take 2 = ['-', '-']) :
    isUnrecognizedFlag opts a = opts.all (fun o => o.longName != a.drop 2) := by
  have hc : isCluster a = false := by
    rw [Bool.eq_false_iff]; intro hc; exact cluster_not_long a hc h
  have hs : isUnknownShortFlag opts a = false := by
    unfold isUnknownShortFlag; unfold isCluster at hc; rw [hc]; rfl
  simp [isUnrecognizedFlag, isUnknownLongFlag, h, hs]

theorem isUnrecognized_short (opts : List ArgOption) (a : List Char)
    (h : isCluster a = true) :
    isUnrecognizedFlag opts a
      = (a.drop 1).any (fun x => opts.all (fun o => o.shortName != x)) := by
  have hl : (a.take 2 == ['-', '-']) = false := by
    simpa using cluster_not_long a h
  have hs : isUnknownShortFlag opts a
      = (isCluster a && (a.drop 1).any (fun x => opts.all (fun o => o.shortName != x))) :=
    rfl
  rw [isUnrecognizedFlag, hs, h, isUnknownLongFlag, hl]
  rfl

theorem isUnrecognized_plain (opts : List ArgOption) (a : List Char)
    (h1 : a.take 2 ≠ ['-', '-']) (h2 : isCluster a = false) :
    isUnrecognizedFlag opts a = false := by
  have hl : (a.take 2 == ['-', '-']) = false := by simpa using h1
  have hs : isUnknownShortFlag opts a
      = (isCluster a && (a.drop 1).any (fun x => opts.all (fun o => o.shortName != x))) :=
    rfl
  rw [isUnrecognizedFlag, hs, h2, isUnknownLongFlag, hl]
  rfl

/-- The three-way dispatch of the loop body, restated on the shape of the entry. -/
theorem ParseFrom_cons (p : ArgParser) (a : List Char) (rest : List (List Char))
    (ha : NUL ∉ a) :
    ParseFrom p (a :: rest) =
      if a.take 2 = ['-', '-'] then
        match ParseLongOption p (a.drop 2) with
        | .error e => .error e
        | .ok p1 => ParseFrom p1 rest
      else if isCluster a = true then
        match ParseShortOptions p (a.drop 1) with
        | .error e => .error e
        | .ok p1 => ParseFrom p1 rest
      else ParseFrom { p with m_arguments := p.m_arguments ++ [a] } rest := by
  rw [ParseFrom]
  by_cases h1 : a.take 2 = ['-', '-']
  · rw [if_pos ((longBranch_iff a).2 h1), if_pos h1]
  · have h1c : ¬ (charAt a 0 = '-' ∧ charAt a 1 = '-') := fun h => h1 ((longBranch_iff a).1 h)
    rw [if_neg h1c, if_neg h1]
    by_cases h2 : isCluster a = true
    · rw [if_pos ((shortBranch_iff a ha).2 h2).2, if_pos h2]
    · have h2c : ¬ (charAt a 0 = '-' ∧ charAt a 1 ≠ NUL) :=
        fun h => h2 ((shortBranch_iff a ha).1 ⟨h1c, h⟩)
      rw [if_neg h2c, if_neg h2]

theorem ParseFrom_throws (l : List (List Char)) (hv : ValidArgv l) :
    ∀ p : ArgParser, throws (ParseFrom p l) = l.any (isUnrecognizedFlag p.m_options) := by
  induction l with
  | nil => intro p; simp [ParseFrom, throws]
  | cons a rest ih =>
    intro p
    have hrest : ValidArgv rest := fun x hx => hv x (List.mem_cons_of_mem _ hx)
    have ha : NUL ∉ a := hv a (List.mem_cons_self _ _)
    rw [ParseFrom_cons p a rest ha, List.any_cons]
    by_cases h1 : a.take 2 = ['-', '-']
    · rw [if_pos h1, isUnrecognized_long _ _ h1, ← ParseLongOption_throws]
      cases hp : ParseLongOption p (a.drop 2) with
      | error e => simp [throws]
      | ok p1 =>
        change throws (ParseFrom p1 rest) = _
        rw [ih hrest, (ParseLongOption_preserves _ _ _ hp).1]
        rfl
    · rw [if_neg h1]
      by_cases h2 : isCluster a = true
      · rw [if_pos h2, isUnrecognized_short _ _ h2,
          ← ParseShortOptions_throws _ (drop_valid a 1 ha)]
        cases hp : ParseShortOptions p (a.drop 1) with
        | error e => simp [throws]
        | ok p1 =>
          change throws (ParseFrom p1 rest) = _
          rw [ih hrest, (ParseShortOptions_preserves _ _ _ hp).1]
          rfl
      · rw [if_neg h2, isUnrecognized_plain _ _ h1 (by simpa using h2), Bool.false_or,
          ih hrest]

theorem ParseFrom_arguments (l : List (List Char)) (hv : ValidArgv l) :
    ∀ (p p1 : ArgParser), ParseFrom p l = .ok p1 →
      p1.m_arguments = p.m_arguments ++ l.filter isPlainArgument := by
  induction l with
  | nil => intro p p1 h; simp [ParseFrom] at h; subst h; simp
  | cons a rest ih =>
    intro p p1 h
    have hrest : ValidArgv rest := fun x hx => hv x (List.mem_cons_of_mem _ hx)
    have ha : NUL ∉ a := hv a (List.mem_cons_self _ _)
    rw [ParseFrom_cons p a rest ha] at h
    by_cases h1 : a.take 2 = ['-', '-']
    · have hnp : isPlainArgument a = false := by
        rw [Bool.eq_false_iff]; intro hp; exact ((plain_iff a).1 hp).1 h1
      rw [if_pos h1] at h
      split at h
      · simp at h
      · rename_i p2 hl
        rw [ih hrest _ _ h, (ParseLongOption_preserves _ _ _ hl).2]
        simp [List.filter_cons, hnp]
    · rw [if_neg h1] at h
      by_cases h2 : isCluster a = true
      · have hnp : isPlainArgument a = false := by
          rw [Bool.eq_false_iff]; intro hp
          rw [((plain_iff a).1 hp).2] at h2; simp at h2
        rw [if_pos h2] at h
        split at h
        · simp at h
        · rename_i p2 hl
          rw [ih hrest _ _ h, (ParseShortOptions_preserves _ _ _ hl).2]
          simp [List.filter_cons, hnp]
      · have hp : isPlainArgument a = true := (plain_iff a).2 ⟨h1, by simpa using h2⟩
        rw [if_neg h2] at h
        rw [ih hrest _ _ h]
        simp [List.filter_cons, hp]

end ArgParser
namespace ArgParser

theorem Hit_congr (p q : ArgParser) (h : q.m_options = p.m_options) (a : List Char)
    (o : ArgOption) : Hit q a o ↔ Hit p a o := by
  simp only [Hit, FindLongOption_congr p q h, FindShortOption_congr p q h]

theorem ParseShortOptions_sets (cs : List Char) (hcs : NUL ∉ cs) :
    ∀ (p p1 : ArgParser), ParseShortOptions p cs = .ok p1 →
      ∃ X : List ArgOption,
        p1.m_setShortOptions = p.m_setShortOptions ++ X.map ArgOption.shortName ∧
        p1.m_setLongOptions = p.m_setLongOptions ++ X.map ArgOption.longName ∧
        ∀ o, o ∈ X ↔ ∃ c ∈ cs, FindShortOption p c = some o := by
  induction cs with
  | nil =>
    intro p p1 h
    simp [ParseShortOptions] at h; subst h
    exact ⟨[], by simp, by simp, by simp⟩
  | cons c rest ih =>
    intro p p1 h
    have hc : c ≠ NUL := by intro h; apply hcs; simp [h]
    have hrest : NUL ∉ rest := fun h => hcs (List.mem_cons_of_mem _ h)
    unfold ParseShortOptions at h
    rw [if_neg hc] at h
    cases hf : FindShortOption p c with
    | none => rw [hf] at h; simp at h
    | some m =>
      rw [hf] at h
      obtain ⟨X, h1, h2, h3⟩ := ih hrest _ _ h
      refine ⟨m :: X, ?_, ?_, ?_⟩
      · rw [h1]; simp [SetOption]
      · rw [h2]; simp [SetOption]
      · intro o
        simp only [List.mem_cons, h3, FindShortOption_congr p _ (SetOption_options p m)]
        constructor
        · rintro (rfl | ⟨x, hx, hxo⟩)
          · exact ⟨c, Or.inl rfl, hf⟩
          · exact ⟨x, Or.inr hx, hxo⟩
        · rintro ⟨x, (rfl | hx), hxo⟩
          · left; rw [hf] at hxo; exact (Option.some.inj hxo).symm
          · right; exact ⟨x, hx, hxo⟩

theorem ParseLongOption_sets (p p1 : ArgParser) (t : List Char)
    (h : ParseLongOption p t = .ok p1) :
    ∃ m, FindLongOption p t = some m ∧
      p1.m_setShortOptions = p.m_setShortOptions ++ [m.shortName] ∧
      p1.m_setLongOptions = p.m_setLongOptions ++ [m.longName] := by
  unfold ParseLongOption at h
  cases hf : FindLongOption p t with
  | none => rw [hf] at h; simp at h
  | some m =>
    rw [hf] at h; simp at h; subst h
    exact ⟨m, rfl, rfl, rfl⟩

theorem ParseFrom_sets (l : List (List Char)) (hv : ValidArgv l) :
    ∀ (p p1 : ArgParser), ParseFrom p l = .ok p1 →
      ∃ X : List ArgOption,
        p1.m_setShortOptions = p.m_setShortOptions ++ X.map ArgOption.shortName ∧
        p1.m_setLongOptions = p.m_setLongOptions ++ X.map ArgOption.longName ∧
        ∀ o, o ∈ X ↔ ∃ a ∈ l, Hit p a o := by
  induction l with
  | nil =>
    intro p p1 h
    simp [ParseFrom] at h; subst h
    exact ⟨[], by simp, by simp, by simp⟩
  | cons a rest ih =>
    intro p p1 h
    have hrest : ValidArgv rest := fun x hx => hv x (List.mem_cons_of_mem _ hx)
    have ha : NUL ∉ a := hv a (List.mem_cons_self _ _)
    rw [ParseFrom_cons p a rest ha] at h
    by_cases h1 : a.take 2 = ['-', '-']
    · rw [if_pos h1] at h
      have hnc : ¬ isCluster a = true := fun hc => cluster_not_long a hc h1
      cases hp : ParseLongOption p (a.drop 2) with
      | error e => rw [hp] at h; simp at h
      | ok p2 =>
        rw [hp] at h
        obtain ⟨m, hm, hs, hl⟩ := ParseLongOption_sets _ _ _ hp
        have hopt := (ParseLongOption_preserves _ _ _ hp).1
        obtain ⟨X, hX1, hX2, hX3⟩ := ih hrest _ _ h
        refine ⟨m :: X, ?_, ?_, ?_⟩
        · rw [hX1, hs]; simp
        · rw [hX2, hl]; simp
        · intro o
          simp only [List.mem_cons, hX3, Hit_congr p p2 hopt]
          constructor
          · rintro (rfl | ⟨x, hx, hxo⟩)
            · exact ⟨a, Or.inl rfl, Or.inl ⟨h1, hm⟩⟩
            · exact ⟨x, Or.inr hx, hxo⟩
          · rintro ⟨x, (rfl | hx), hxo⟩
            · rcases hxo with ⟨_, hxo⟩ | ⟨hc, _⟩
              · left; rw [hm] at hxo; exact (Option.some.inj hxo).symm
              · exact absurd hc hnc
            · right; exact ⟨x, hx, hxo⟩
    · rw [if_neg h1] at h
      by_cases h2 : isCluster a = true
      · rw [if_pos h2] at h
        cases hp : ParseShortOptions p (a.drop 1) with
        | error e => rw [hp] at h; simp at h
        | ok p2 =>
          rw [hp] at h
          obtain ⟨Y, hY1, hY2, hY3⟩ :=
            ParseShortOptions_sets _ (drop_valid a 1 ha) _ _ hp
          have hopt := (ParseShortOptions_preserves _ _ _ hp).1
          obtain ⟨X, hX1, hX2, hX3⟩ := ih hrest _ _ h
          refine ⟨Y ++ X, ?_, ?_, ?_⟩
          · rw [hX1, hY1]; simp
          · rw [hX2, hY2]; simp
          · intro o
            simp only [List.mem_append, hX3, hY3, Hit_congr p p2 hopt]
            constructor
            · rintro (hy | ⟨x, hx, hxo⟩)
              · exact ⟨a, List.mem_cons_self _ _, Or.inr ⟨h2, hy⟩⟩
              · exact ⟨x, List.mem_cons_of_mem _ hx, hxo⟩
            · rintro ⟨x, hx, hxo⟩
              rcases List.mem_cons.1 hx with rfl | hx
              · rcases hxo with ⟨ht, _⟩ | ⟨_, hy⟩
                · exact absurd ht h1
                · exact Or.inl hy
              · exact Or.inr ⟨x, hx, hxo⟩
      · rw [if_neg h2] at h
        obtain ⟨X, hX1, hX2, hX3⟩ := ih hrest _ _ h
        refine ⟨X, hX1, hX2, ?_⟩
        intro o
        rw [hX3]
        have hq : ∀ x, Hit { p with m_arguments := p.m_arguments ++ [a] } x o ↔ Hit p x o :=
          fun x => Hit_congr p _ rfl x o
        simp only [hq]
        constructor
        · rintro ⟨x, hx, hxo⟩; exact ⟨x, List.mem_cons_of_mem _ hx, hxo⟩
        · rintro ⟨x, hx, hxo⟩
          rcases List.mem_cons.1 hx with rfl | hx
          · rcases hxo with ⟨ht, _⟩ | ⟨hc, _⟩
            · exact absurd ht h1
            · exact absurd hc h2
          · exact ⟨x, hx, hxo⟩

theorem withOptions_fold (opts : List ArgOption) :
    ∀ p : ArgParser,
      opts.foldl (fun p o => AddOption p o.shortName o.longName) p
        = { p with m_options := p.m_options ++ opts } := by
  induction opts with
  | nil => intro p; simp
  | cons o rest ih =>
    intro p
    rw [List.foldl_cons, ih]
    simp [AddOption]

theorem withOptions_eq (opts : List ArgOption) : withOptions opts = ⟨opts, [], [], []⟩ := by
  rw [withOptions, withOptions_fold]; simp [fresh]

theorem findShort_some_iff (p : ArgParser) (hs : (p.m_options.map ArgOption.shortName).Nodup)
    (o : ArgOption) (ho : o ∈ p.m_options) (c : Char) :
    FindShortOption p c = some o ↔ c = o.shortName := by
  constructor
  · intro h
    have := List.find?_some h
    simp at this
    exact this.symm
  · intro h
    cases hf : FindShortOption p c with
    | none =>
      rw [FindShortOption, List.find?_eq_none] at hf
      exact absurd (by simp [h]) (hf o ho)
    | some m =>
      have hm : m ∈ p.m_options := List.mem_of_find?_eq_some hf
      have hmc : m.shortName = c := by simpa using List.find?_some hf
      rw [List.inj_on_of_nodup_map hs hm ho (hmc.trans h)]

theorem findLong_some_iff (p : ArgParser) (hl : (p.m_options.map ArgOption.longName).Nodup)
    (o : ArgOption) (ho : o ∈ p.m_options) (t : List Char) :
    FindLongOption p t = some o ↔ t = o.longName := by
  constructor
  · intro h
    have := List.find?_some h
    simp at this
    exact this.symm
  · intro h
    cases hf : FindLongOption p t with
    | none =>
      rw [FindLongOption, List.find?_eq_none] at hf
      exact absurd (by simp [h]) (hf o ho)
    | some m =>
      have hm : m ∈ p.m_options := List.mem_of_find?_eq_some hf
      have hmc : m.longName = t := by simpa using List.find?_some hf
      rw [List.inj_on_of_nodup_map hl hm ho (hmc.trans h)]

theorem Hit_iff_selects (p : ArgParser)
    (hs : (p.m_options.map ArgOption.shortName).Nodup)
    (hl : (p.m_options.map ArgOption.longName).Nodup)
    (o : ArgOption) (ho : o ∈ p.m_options) (a : List Char) :
    Hit p a o ↔ selects o.shortName o.longName a = true := by
  have hsel : selects o.shortName o.longName a = true ↔
      (a = '-' :: '-' :: o.longName ∨ (isCluster a = true ∧ o.shortName ∈ a.drop 1)) := by
    simp [selects]
  rw [hsel]
  simp only [Hit, findLong_some_iff p hl o ho, findShort_some_iff p hs o ho]
  constructor
  · rintro (⟨h1, h2⟩ | ⟨h1, c, hc, rfl⟩)
    · left
      rw [← List.take_append_drop 2 a, h1, h2]; rfl
    · right; exact ⟨h1, hc⟩
  · rintro (h | ⟨h1, hc⟩)
    · left; subst h; simp
    · right; exact ⟨h1, _, hc, rfl⟩

theorem Hit_mem (p : ArgParser) (a : List Char) (o : ArgOption) (h : Hit p a o) :
    o ∈ p.m_options := by
  rcases h with ⟨_, h⟩ | ⟨_, c, _, h⟩
  · exact List.mem_of_find?_eq_some h
  · exact List.mem_of_find?_eq_some h

end ArgParser
namespace ArgParser

theorem HasOption_iff_mem (opts : List ArgOption)
    (hs : (opts.map ArgOption.shortName).Nodup) (hl : (opts.map ArgOption.longName).Nodup)
    (l : List (List Char)) (hv : ValidArgv l) (p1 : ArgParser)
    (h : ParseFrom (withOptions opts) l = .ok p1) (o : ArgOption) (ho : o ∈ opts) :
    (HasOptionShort p1 o.shortName = true
        ↔ l.any (selects o.shortName o.longName) = true) ∧
    (HasOptionLong p1 o.longName = true
        ↔ l.any (selects o.shortName o.longName) = true) := by
  rw [withOptions_eq] at h
  obtain ⟨X, hX1, hX2, hX3⟩ := ParseFrom_sets l hv _ _ h
  have hmem : ∀ o1 ∈ X, o1 ∈ opts := by
    intro o1 h1
    obtain ⟨a, _, ha⟩ := (hX3 o1).1 h1
    exact Hit_mem _ a o1 ha
  have hsel : l.any (selects o.shortName o.longName) = true ↔ o ∈ X := by
    rw [hX3, List.any_eq_true]
    constructor
    · rintro ⟨a, ha, hsa⟩
      exact ⟨a, ha, (Hit_iff_selects ⟨opts, [], [], []⟩ hs hl o ho a).2 hsa⟩
    · rintro ⟨a, ha, hsa⟩
      exact ⟨a, ha, (Hit_iff_selects ⟨opts, [], [], []⟩ hs hl o ho a).1 hsa⟩
  rw [hsel]
  constructor
  · simp only [HasOptionShort, hX1, List.nil_append, List.contains_iff_exists_mem_beq,
      List.mem_map, beq_iff_eq]
    constructor
    · rintro ⟨_, ⟨o1, h1, rfl⟩, h2⟩
      rw [List.inj_on_of_nodup_map hs ho (hmem o1 h1) h2]; exact h1
    · intro h1; exact ⟨_, ⟨o, h1, rfl⟩, rfl⟩
  · simp only [HasOptionLong, hX2, List.nil_append, List.contains_iff_exists_mem_beq,
      List.mem_map, beq_iff_eq]
    constructor
    · rintro ⟨_, ⟨o1, h1, rfl⟩, h2⟩
      rw [List.inj_on_of_nodup_map hl ho (hmem o1 h1) h2]; exact h1
    · intro h1; exact ⟨_, ⟨o, h1, rfl⟩, rfl⟩

end ArgParser

/-! ## ArgParser: the claims -/

/-- C6. For every parser state (hence every list of registered options) and every argv of
    C strings, `ArgParser::Parse` throws exactly when some `argv[i]`, `i >= 1`, is an
    unrecognized flag: it begins with `--` and the rest equals no registered long name, or
    it is a single-dash cluster one of whose characters after the dash equals no
    registered short name. Otherwise the call returns normally. -/
theorem Parse_throws_iff (p : ArgParser) (argv : List (List Char)) (hv : ValidArgv argv) :
    (throws (ArgParser.Parse p argv) = true
      ↔ ∃ a ∈ argv.drop 1, ArgParser.isUnrecognizedFlag p.m_options a = true) ∧
    (throws (ArgParser.Parse p argv) = false ↔ ∃ p1, ArgParser.Parse p argv = .ok p1) := by
  have hd : ValidArgv (argv.drop 1) := fun a ha => hv a (List.mem_of_mem_drop ha)
  refine ⟨?_, ?_⟩
  · rw [ArgParser.Parse, ArgParser.ParseFrom_throws _ hd, List.any_eq_true]
  · cases h : ArgParser.Parse p argv with
    | error e => simp [throws]
    | ok p1 => simp [throws]

/-- Witness for C6: registered `-v`, `--verbose`; `-vx` is rejected at `x`. -/
theorem Parse_throws_iff_witness :
    ValidArgv ["bfarchive".toList, "-vx".toList] ∧
    throws (ArgParser.Parse (ArgParser.withOptions [⟨'v', "verbose".toList⟩])
      ["bfarchive".toList, "-vx".toList]) = true ∧
    ∃ a ∈ ["bfarchive".toList, "-vx".toList].drop 1,
      ArgParser.isUnrecognizedFlag
        (ArgParser.withOptions [⟨'v', "verbose".toList⟩]).m_options a = true :=
  ⟨by decide, by decide,
    ((Parse_throws_iff (ArgParser.withOptions [⟨'v', "verbose".toList⟩])
      ["bfarchive".toList, "-vx".toList] (by decide)).1).1 (by decide)⟩

/-- C9. With pairwise distinct short names and pairwise distinct long names, after a
    `Parse` that returns normally on a parser holding exactly the registered options,
    each registered option `(s, l)` has `HasOption(s) = HasOption(l)`, and both are true
    exactly when some `argv[i]`, `i >= 1`, is `--l` or a single-dash cluster containing
    `s`; before the `Parse` call both are false. -/
theorem HasOption_after_Parse (opts : List ArgOption)
    (hs : (opts.map ArgOption.shortName).Nodup) (hl : (opts.map ArgOption.longName).Nodup)
    (argv : List (List Char)) (hv : ValidArgv argv) (p1 : ArgParser)
    (h : ArgParser.Parse (ArgParser.withOptions opts) argv = .ok p1)
    (o : ArgOption) (ho : o ∈ opts) :
    ArgParser.HasOptionShort p1 o.shortName = ArgParser.HasOptionLong p1 o.longName ∧
    ArgParser.HasOptionShort p1 o.shortName
      = (argv.drop 1).any (ArgParser.selects o.shortName o.longName) ∧
    ArgParser.HasOptionShort (ArgParser.withOptions opts) o.shortName = false ∧
    ArgParser.HasOptionLong (ArgParser.withOptions opts) o.longName = false := by
  have hd : ValidArgv (argv.drop 1) := fun a ha => hv a (List.mem_of_mem_drop ha)
  obtain ⟨h1, h2⟩ := ArgParser.HasOption_iff_mem opts hs hl _ hd p1 h o ho
  refine ⟨?_, ?_, ?_, ?_⟩
  · rw [Bool.eq_iff_iff, h1, h2]
  · rw [Bool.eq_iff_iff, h1]
  · rw [ArgParser.withOptions_eq]; rfl
  · rw [ArgParser.withOptions_eq]; rfl

/-- Witness for C9: options (`-a`, `--all`) and (`-v`, `--verbose`), argv `prog -v file --all`. -/
theorem HasOption_after_Parse_witness :
    ArgParser.HasOptionShort
        ⟨[⟨'a', "all".toList⟩, ⟨'v', "verbose".toList⟩], ['v', 'a'],
          ["verbose".toList, "all".toList], ["file".toList]⟩ 'v'
      = ArgParser.HasOptionLong
        ⟨[⟨'a', "all".toList⟩, ⟨'v', "verbose".toList⟩], ['v', 'a'],
          ["verbose".toList, "all".toList], ["file".toList]⟩ "verbose".toList ∧
    ArgParser.HasOptionShort
        ⟨[⟨'a', "all".toList⟩, ⟨'v', "verbose".toList⟩], ['v', 'a'],
          ["verbose".toList, "all".toList], ["file".toList]⟩ 'v'
      = (["prog".toList, "-v".toList, "file".toList, "--all".toList].drop 1).any
          (ArgParser.selects 'v' "verbose".toList) ∧
    ArgParser.HasOptionShort
      (ArgParser.withOptions [⟨'a', "all".toList⟩, ⟨'v', "verbose".toList⟩]) 'v' = false ∧
    ArgParser.HasOptionLong
      (ArgParser.withOptions [⟨'a', "all".toList⟩, ⟨'v', "verbose".toList⟩])
      "verbose".toList = false :=
  HasOption_after_Parse [⟨'a', "all".toList⟩, ⟨'v', "verbose".toList⟩]
    (by decide) (by decide)
    ["prog".toList, "-v".toList, "file".toList, "--all".toList] (by decide)
    ⟨[⟨'a', "all".toList⟩, ⟨'v', "verbose".toList⟩], ['v', 'a'],
      ["verbose".toList, "all".toList], ["file".toList]⟩
    (by rfl) ⟨'v', "verbose".toList⟩ (by decide)

/-- C10. After a `Parse` that returns normally on a fresh parser, `Arguments()` is the
    subsequence, in order, of `argv[1..]` made of the entries that do not begin with `-`
    or are exactly `-`; `argv[0]` is never examined and no flag is kept. -/
theorem Arguments_after_Parse (opts : List ArgOption) (argv : List (List Char))
    (hv : ValidArgv argv) (p1 : ArgParser)
    (h : ArgParser.Parse (ArgParser.withOptions opts) argv = .ok p1) :
    ArgParser.Arguments p1 = (argv.drop 1).filter ArgParser.isPlainArgument := by
  have hd : ValidArgv (argv.drop 1) := fun a ha => hv a (List.mem_of_mem_drop ha)
  rw [ArgParser.Arguments, ArgParser.ParseFrom_arguments _ hd _ _ h,
    ArgParser.withOptions_eq]
  rfl

/-- Witness for C10: argv `x -v - "" out --all`, with `argv[0] = "x"` also a plain word. -/
theorem Arguments_after_Parse_witness :
    ArgParser.Arguments
        ⟨[⟨'a', "all".toList⟩, ⟨'v', "verbose".toList⟩], ['v', 'a'],
          ["verbose".toList, "all".toList], ["-".toList, [], "out".toList]⟩
      = (["x".toList, "-v".toList, "-".toList, [], "out".toList, "--all".toList].drop 1).filter
          ArgParser.isPlainArgument :=
  Arguments_after_Parse [⟨'a', "all".toList⟩, ⟨'v', "verbose".toList⟩]
    ["x".toList, "-v".toList, "-".toList, [], "out".toList, "--all".toList] (by decide)
    ⟨[⟨'a', "all".toList⟩, ⟨'v', "verbose".toList⟩], ['v', 'a'],
      ["verbose".toList, "all".toList], ["-".toList, [], "out".toList]⟩ (by rfl)

/-! ## UnixFilesystem: lemmas and claims -/

theorem StreamStdInLoop_spec (strerror : Int → String) (read : Nat → SysResult) (k : Nat) :
    ∀ (n fuel i : Nat) (calls : List StreamCall), i + n = k → n < fuel →
      (∀ j, i ≤ j → j < k → 0 < (read j).ret) → (read k).ret ≤ 0 →
      StreamStdInLoop strerror read fuel i calls =
        if (read k).ret < 0 then
          some (.error ⟨"Failed to read from stdin: " ++ strerror (read k).errno⟩,
            calls ++ (List.range n).map (fun j => StreamCall.write (readChunk read (i + j))))
        else
          some (.ok (),
            calls ++ (List.range n).map (fun j => StreamCall.write (readChunk read (i + j)))
              ++ [.finish]) := by
  intro n
  induction n with
  | zero =>
    intro fuel i calls hik hf hpos hk
    obtain ⟨fuel, rfl⟩ : ∃ f, fuel = f + 1 := ⟨fuel - 1, by omega⟩
    have : i = k := by omega
    subst this
    unfold StreamStdInLoop
    by_cases hneg : (read i).ret < 0
    · simp [hneg]
    · have h0 : (read i).ret = 0 := by omega
      simp [h0]
  | succ n ih =>
    intro fuel i calls hik hf hpos hk
    obtain ⟨fuel, rfl⟩ : ∃ f, fuel = f + 1 := ⟨fuel - 1, by omega⟩
    have hi : 0 < (read i).ret := hpos i (le_refl _) (by omega)
    unfold StreamStdInLoop
    have h1 : ¬ (read i).ret < 0 := by omega
    have h2 : ¬ (read i).ret = 0 := by omega
    simp only [h1, h2, if_false]
    rw [ih fuel (i + 1) _ (by omega) (by omega) (fun j hj hjk => hpos j (by omega) hjk) hk]
    have hr : (List.range (n + 1)).map (fun j => StreamCall.write (readChunk read (i + j)))
        = StreamCall.write (readChunk read i)
          :: (List.range n).map (fun j => StreamCall.write (readChunk read (i + 1 + j))) := by
      rw [List.range_succ_eq_map, List.map_cons, List.map_map]
      simp only [Nat.add_zero, List.cons.injEq, true_and]
      apply List.map_congr_left
      intro j _
      simp only [Function.comp, Nat.succ_eq_add_one]
      congr 2; omega
    rw [hr]
    simp [readChunk, List.append_assoc]

/-- C7. Let read number `k` be the first one whose result is not positive, and let the
    fuel exceed `k`. `StreamStdIn` passes the chunks of reads `0 .. k-1` to `stream.Write`
    in the order read; when read `k` returns 0 it then calls `stream.End()` once, as the
    last call, and returns; when read `k` returns a negative value it throws an `Error`
    whose text begins with `Failed to read from stdin`, without calling `stream.End()`
    and without writing any further chunk. -/
theorem StreamStdIn_calls (strerror : Int → String) (read : Nat → SysResult)
    (k fuel : Nat) (hpos : ∀ j, j < k → 0 < (read j).ret) (hk : (read k).ret ≤ 0)
    (hfuel : k < fuel) :
    ((read k).ret = 0 →
      StreamStdIn strerror read fuel =
        some (.ok (),
          (List.range k).map (fun j => StreamCall.write (readChunk read j))
            ++ [StreamCall.finish])) ∧
    ((read k).ret < 0 →
      StreamStdIn strerror read fuel =
        some (.error ⟨"Failed to read from stdin" ++ (": " ++ strerror (read k).errno)⟩,
          (List.range k).map (fun j => StreamCall.write (readChunk read j)))) := by
  have h := StreamStdInLoop_spec strerror read k k fuel 0 [] (by omega) hfuel
    (fun j _ hj => hpos j hj) hk
  simp only [Nat.zero_add, List.nil_append] at h
  constructor
  · intro h0
    rw [StreamStdIn, h, if_neg (by omega)]
  · intro hneg
    rw [StreamStdIn, h, if_pos hneg, ← String.append_assoc]
    rfl

/-- Witness for C7: two reads of 3 and 1 bytes, then end of input. -/
theorem StreamStdIn_calls_witness :
    StreamStdIn (fun _ => "Bad file descriptor")
        (fun i => if i = 0 then ⟨3, 0, [104, 105, 33, 0]⟩
          else if i = 1 then ⟨1, 0, [10, 105, 33, 0]⟩ else ⟨0, 0, [10, 105, 33, 0]⟩) 3
      = some (.ok (), [.write [104, 105, 33], .write [10], .finish]) :=
  (StreamStdIn_calls (fun _ => "Bad file descriptor")
    (fun i => if i = 0 then ⟨3, 0, [104, 105, 33, 0]⟩
      else if i = 1 then ⟨1, 0, [10, 105, 33, 0]⟩ else ⟨0, 0, [10, 105, 33, 0]⟩) 2 3
    (by intro j hj; interval_cases j <;> simp) (by simp) (by decide)).1 (by simp)

theorem delivered_append (a b : List StreamCall) :
    delivered (a ++ b) = delivered a ++ delivered b := by
  induction a with
  | nil => rfl
  | cons x rest ih => cases x <;> simp [delivered, ih]

theorem endCount_append (a b : List StreamCall) :
    endCount (a ++ b) = endCount a + endCount b := by
  induction a with
  | nil => simp [endCount]
  | cons x rest ih => cases x <;> simp [endCount, ih]; omega

theorem Codec.run_cons {σ : Type} (c : Codec σ) (z : σ) (b : Byte) (rest : List Byte) :
    c.run z (b :: rest) =
      match c.step z b with
      | none => none
      | some (z1, out) =>
        match c.run z1 rest with
        | none => none
        | some (z2, out2) => some (z2, out ++ out2) := rfl

theorem Codec.run_append {σ : Type} (c : Codec σ) (a b : List Byte) :
    ∀ z : σ, c.run z (a ++ b) =
      match c.run z a with
      | none => none
      | some (z1, out1) =>
        match c.run z1 b with
        | none => none
        | some (z2, out2) => some (z2, out1 ++ out2) := by
  induction a with
  | nil =>
    intro z
    simp only [List.nil_append, Codec.run]
    cases c.run z b with
    | none => rfl
    | some r => rfl
  | cons x rest ih =>
    intro z
    rw [List.cons_append, Codec.run_cons, Codec.run_cons]
    cases hs : c.step z x with
    | none => rfl
    | some r =>
      obtain ⟨z1, o1⟩ := r
      simp only
      rw [ih z1]
      cases c.run z1 rest with
      | none => rfl
      | some r1 =>
        obtain ⟨z2, o2⟩ := r1
        simp only
        cases c.run z2 b with
        | none => rfl
        | some r2 => simp [List.append_assoc]

theorem get?_mid (B T : List Byte) (b : Byte) : (B ++ b :: T).get? B.length = some b := by
  induction B with
  | nil => rfl
  | cons a B ih => simpa using ih

namespace InflateStream

variable {σ : Type}

theorem Feed_ok (c : Codec σ) (data : List Byte) :
    ∀ (s : InflateStream σ) (z : σ) (out : List Byte),
      c.run s.engine data = some (z, out) →
      ∃ ws, Feed c s data = (⟨s.mode, s.buffer, z, s.sink ++ ws⟩, none) ∧
        delivered ws = out ∧ endCount ws = 0 := by
  induction data with
  | nil =>
    intro s z out h
    simp only [Codec.run, Option.some.injEq, Prod.mk.injEq] at h
    obtain ⟨rfl, rfl⟩ := h
    exact ⟨[], by simp [Feed], rfl, rfl⟩
  | cons b rest ih =>
    intro s z out h
    simp only [Codec.run] at h
    cases hs : c.step s.engine b with
    | none => rw [hs] at h; simp at h
    | some r =>
      obtain ⟨z1, o1⟩ := r
      rw [hs] at h
      simp only at h
      cases hr : c.run z1 rest with
      | none => rw [hr] at h; simp at h
      | some r1 =>
        obtain ⟨z2, o2⟩ := r1
        rw [hr] at h
        simp only [Option.some.injEq, Prod.mk.injEq] at h
        obtain ⟨rfl, rfl⟩ := h
        obtain ⟨ws, h1, h2, h3⟩ :=
          ih { s with engine := z1,
                      sink := if o1 = [] then s.sink else s.sink ++ [.write o1] } z2 o2 hr
        by_cases ho : o1 = []
        · refine ⟨ws, ?_, ?_, h3⟩
          · simp only [Feed, hs]; rw [h1]; simp [ho]
          · simp [h2, ho]
        · refine ⟨.write o1 :: ws, ?_, ?_, ?_⟩
          · simp only [Feed, hs]; rw [h1]; simp [ho]
          · simp [delivered, h2]
          · simp [endCount, h3]

theorem Feed_err (c : Codec σ) (data : List Byte) :
    ∀ (s : InflateStream σ), c.run s.engine data = none →
      ∃ s1 ws, Feed c s data = (s1, some .DecodeError) ∧ s1.sink = s.sink ++ ws ∧
        endCount ws = 0 := by
  induction data with
  | nil => intro s h; simp [Codec.run] at h
  | cons b rest ih =>
    intro s h
    simp only [Codec.run] at h
    cases hs : c.step s.engine b with
    | none =>
      exact ⟨{ s with mode := .Failed }, [], by simp only [Feed, hs], by simp, rfl⟩
    | some r =>
      obtain ⟨z1, o1⟩ := r
      rw [hs] at h
      simp only at h
      cases hr : c.run z1 rest with
      | some r1 => rw [hr] at h; simp at h
      | none =>
        obtain ⟨s1, ws, h1, h2, h3⟩ :=
          ih { s with engine := z1,
                      sink := if o1 = [] then s.sink else s.sink ++ [.write o1] } hr
        by_cases ho : o1 = []
        · refine ⟨s1, ws, ?_, ?_, h3⟩
          · simp only [Feed, hs]; rw [h1]
          · rw [h2]; simp [ho]
        · refine ⟨s1, .write o1 :: ws, ?_, ?_, ?_⟩
          · simp only [Feed, hs]; rw [h1]
          · rw [h2]; simp [ho]
          · simp [endCount, h3]

theorem Sniff_cons (c : Codec σ) (s : InflateStream σ) (b : Byte) (rest : List Byte) :
    Sniff c s (b :: rest) =
      if signature.get? s.buffer.length = some b then
        if s.buffer.length + 1 = signature.length then
          Feed c { s with mode := .Compressed, buffer := [] } rest
        else
          Sniff c { s with buffer := s.buffer ++ [b] } rest
      else
        ({ s with mode := .Raw, buffer := [],
                  sink := if rest = [] then s.sink ++ [.write (s.buffer ++ [b])]
                          else s.sink ++ [.write (s.buffer ++ [b]), .write rest] }, none) :=
  rfl

/-- While the bytes written stay a strict beginning of the signature, they are only
    buffered. -/
theorem Sniff_stay (c : Codec σ) (data : List Byte) :
    ∀ (s : InflateStream σ) (t : List Byte), s.buffer ++ data ++ t = signature → t ≠ [] →
      Sniff c s data = ({ s with buffer := s.buffer ++ data }, none) := by
  induction data with
  | nil => intro s t _ _; simp [Sniff]
  | cons b rest ih =>
    intro s t h ht
    have hlen := congrArg List.length h
    simp only [List.length_append, List.length_cons] at hlen
    have htl : 0 < t.length := List.length_pos.2 ht
    have hb : signature.get? s.buffer.length = some b := by
      have h1 : s.buffer ++ b :: (rest ++ t) = signature := by simpa using h
      rw [← h1]; exact get?_mid _ _ _
    have hn : ¬ (s.buffer.length + 1 = signature.length) := by omega
    rw [Sniff_cons, if_pos hb, if_neg hn,
      ih { s with buffer := s.buffer ++ [b] } t (by simpa using h) ht]
    simp

/-- When a call supplies the rest of the signature, the bytes after it go to the codec. -/
theorem Sniff_complete (c : Codec σ) (e : List Byte) :
    ∀ (s : InflateStream σ) (z : List Byte), s.buffer ++ e = signature → e ≠ [] →
      Sniff c s (e ++ z) = Feed c { s with mode := .Compressed, buffer := [] } z := by
  induction e with
  | nil => intro s z _ h; exact absurd rfl h
  | cons b rest ih =>
    intro s z h _
    have hlen := congrArg List.length h
    simp only [List.length_append, List.length_cons] at hlen
    have hb : signature.get? s.buffer.length = some b := by
      rw [← h]; exact get?_mid _ _ _
    by_cases hr : rest = []
    · subst hr
      have hn : s.buffer.length + 1 = signature.length := by simpa using hlen
      rw [List.cons_append, List.nil_append, Sniff_cons, if_pos hb, if_pos hn]
    · have hrl : 0 < rest.length := List.length_pos.2 hr
      have hn : ¬ (s.buffer.length + 1 = signature.length) := by omega
      rw [List.cons_append, Sniff_cons, if_pos hb, if_neg hn,
        ih { s with buffer := s.buffer ++ [b] } z (by simpa using h) hr]

/-- At the first byte that differs from the signature the stream turns Raw and the sink
    receives everything written so far. -/
theorem Sniff_differ (c : Codec σ) (pre : List Byte) :
    ∀ (s : InflateStream σ) (x y : Byte) (t rest : List Byte),
      s.buffer ++ pre ++ x :: t = signature → y ≠ x →
      ∃ ws, Sniff c s (pre ++ y :: rest) = (⟨.Raw, [], s.engine, s.sink ++ ws⟩, none) ∧
        delivered ws = s.buffer ++ pre ++ y :: rest ∧ endCount ws = 0 := by
  induction pre with
  | nil =>
    intro s x y t rest h hxy
    have hb : ¬ (signature.get? s.buffer.length = some y) := by
      have h1 : s.buffer ++ x :: t = signature := by simpa using h
      rw [← h1, get?_mid]
      exact fun h => hxy (Option.some.inj h).symm
    by_cases hr : rest = []
    · refine ⟨[.write (s.buffer ++ [y])], ?_, ?_, rfl⟩
      · rw [List.nil_append, Sniff_cons, if_neg hb, if_pos hr]
      · simp [delivered, hr]
    · refine ⟨[.write (s.buffer ++ [y]), .write rest], ?_, ?_, rfl⟩
      · rw [List.nil_append, Sniff_cons, if_neg hb, if_neg hr]
      · simp [delivered]
  | cons b pre ih =>
    intro s x y t rest h hxy
    have hlen := congrArg List.length h
    simp only [List.length_append, List.length_cons] at hlen
    have hb : signature.get? s.buffer.length = some b := by
      have h1 : s.buffer ++ b :: (pre ++ x :: t) = signature := by simpa using h
      rw [← h1]; exact get?_mid _ _ _
    have hn : ¬ (s.buffer.length + 1 = signature.length) := by omega
    obtain ⟨ws, h1, h2, h3⟩ :=
      ih { s with buffer := s.buffer ++ [b] } x y t rest (by simpa using h) hxy
    refine ⟨ws, ?_, ?_, h3⟩
    · rw [List.cons_append, Sniff_cons, if_pos hb, if_neg hn, h1]
    · rw [h2]; simp

/-- Two lists either continue one another or have a first position where they differ. -/
theorem compare_lists (e : List Byte) :
    ∀ d : List Byte,
      (∃ t, d ++ t = e ∧ t ≠ []) ∨ (∃ z, d = e ++ z) ∨
      (∃ pre x y t r, e = pre ++ x :: t ∧ d = pre ++ y :: r ∧ y ≠ x) := by
  induction e with
  | nil => intro d; exact Or.inr (Or.inl ⟨d, rfl⟩)
  | cons a e ih =>
    intro d
    cases d with
    | nil => exact Or.inl ⟨a :: e, rfl, by simp⟩
    | cons b d =>
      by_cases hab : b = a
      · subst hab
        rcases ih d with ⟨t, h1, h2⟩ | ⟨z, h⟩ | ⟨pre, x, y, t, r, h1, h2, h3⟩
        · exact Or.inl ⟨t, by simp [h1], h2⟩
        · exact Or.inr (Or.inl ⟨z, by simp [h]⟩)
        · exact Or.inr (Or.inr ⟨b :: pre, x, y, t, r, by simp [h1], by simp [h2], h3⟩)
      · exact Or.inr (Or.inr ⟨[], a, b, e, d, rfl, rfl, hab⟩)

theorem WriteAll_nil (c : Codec σ) (s : InflateStream σ) : WriteAll c s [] = (s, none) :=
  rfl

theorem WriteAll_cons (c : Codec σ) (s : InflateStream σ) (d : List Byte)
    (rest : List (List Byte)) :
    WriteAll c s (d :: rest) =
      match Write c s d with
      | (s1, none) => WriteAll c s1 rest
      | (s1, some e) => (s1, some e) := rfl

theorem WriteAll_raw (c : Codec σ) (chunks : List (List Byte)) :
    ∀ (bf : List Byte) (en : σ) (sk : List StreamCall),
      ∃ ws, WriteAll c ⟨.Raw, bf, en, sk⟩ chunks = (⟨.Raw, bf, en, sk ++ ws⟩, none) ∧
        delivered ws = chunks.flatten ∧ endCount ws = 0 := by
  induction chunks with
  | nil => intro bf en sk; exact ⟨[], by simp [WriteAll], rfl, rfl⟩
  | cons d rest ih =>
    intro bf en sk
    obtain ⟨ws, h1, h2, h3⟩ := ih bf en (sk ++ [.write d])
    refine ⟨.write d :: ws, ?_, ?_, ?_⟩
    · rw [WriteAll_cons]
      simp only [Write]
      rw [h1]; simp
    · simp [delivered, h2]
    · simp [endCount, h3]

theorem WriteAll_compressed (c : Codec σ) (chunks : List (List Byte)) :
    ∀ (bf : List Byte) (en : σ) (sk : List StreamCall) (z : σ) (out : List Byte),
      c.run en chunks.flatten = some (z, out) →
      ∃ ws, WriteAll c ⟨.Compressed, bf, en, sk⟩ chunks
          = (⟨.Compressed, bf, z, sk ++ ws⟩, none) ∧
        delivered ws = out ∧ endCount ws = 0 := by
  induction chunks with
  | nil =>
    intro bf en sk z out h
    simp only [List.flatten_nil, Codec.run, Option.some.injEq, Prod.mk.injEq] at h
    obtain ⟨rfl, rfl⟩ := h
    exact ⟨[], by simp [WriteAll], rfl, rfl⟩
  | cons d rest ih =>
    intro bf en sk z out h
    rw [List.flatten_cons, Codec.run_append] at h
    cases h1 : c.run en d with
    | none => rw [h1] at h; simp at h
    | some r1 =>
      obtain ⟨z1, o1⟩ := r1
      rw [h1] at h
      simp only at h
      cases h2 : c.run z1 rest.flatten with
      | none => rw [h2] at h; simp at h
      | some r2 =>
        obtain ⟨z2, o2⟩ := r2
        rw [h2] at h
        simp only [Option.some.injEq, Prod.mk.injEq] at h
        obtain ⟨rfl, rfl⟩ := h
        obtain ⟨ws1, f1, f2, f3⟩ := Feed_ok c d ⟨.Compressed, bf, en, sk⟩ z1 o1 h1
        obtain ⟨ws2, g1, g2, g3⟩ := ih bf z1 (sk ++ ws1) z2 o2 h2
        refine ⟨ws1 ++ ws2, ?_, ?_, ?_⟩
        · rw [WriteAll_cons]
          simp only [Write]
          rw [f1]
          simp only
          rw [g1]; simp
        · rw [delivered_append, f2, g2]
        · rw [endCount_append, f3, g3]

end InflateStream
namespace InflateStream

variable {σ : Type}

theorem WriteAll_append (c : Codec σ) (a b : List (List Byte)) :
    ∀ s : InflateStream σ, WriteAll c s (a ++ b) =
      match WriteAll c s a with
      | (s1, none) => WriteAll c s1 b
      | (s1, some e) => (s1, some e) := by
  induction a with
  | nil => intro s; rfl
  | cons d rest ih =>
    intro s
    rw [List.cons_append, WriteAll_cons, WriteAll_cons]
    rcases hw : Write c s d with ⟨s1, _ | e⟩
    · simp only; rw [ih]
    · rfl

/-- The input agrees with the signature wherever both are defined. -/
theorem differs_false (input : List Byte)
    (h : ∀ i, i < signature.length → i < input.length → input.get? i = signature.get? i) :
    differsFromSignature input = false := by
  rw [differsFromSignature, List.any_eq_false]
  intro i hi
  rw [List.mem_range] at hi
  by_cases hl : i < input.length
  · rw [h i hi hl]; simp
  · simp [hl]

theorem differs_false_left (B E : List Byte) (h : B ++ E = signature) :
    differsFromSignature B = false := by
  apply differs_false
  intro i _ hi
  rw [← h, List.get?_eq_getElem?, List.get?_eq_getElem?, List.getElem?_append_left hi]

theorem differs_false_right (w : List Byte) : differsFromSignature (signature ++ w) = false := by
  apply differs_false
  intro i hi _
  rw [List.get?_eq_getElem?, List.get?_eq_getElem?, List.getElem?_append_left hi]

/-- Input that differs from the signature: whatever the chunking, the stream ends up Raw
    and the sink has received the buffered bytes followed by all the chunks. -/
theorem WriteAll_und_raw (c : Codec σ) (chunks : List (List Byte)) :
    ∀ (B E : List Byte) (en : σ) (sk : List StreamCall), B ++ E = signature → E ≠ [] →
      differsFromSignature (B ++ chunks.flatten) = true →
      ∃ ws, WriteAll c ⟨.Undetermined, B, en, sk⟩ chunks = (⟨.Raw, [], en, sk ++ ws⟩, none) ∧
        delivered ws = B ++ chunks.flatten ∧ endCount ws = 0 := by
  induction chunks with
  | nil =>
    intro B E en sk hBE _ hd
    rw [List.flatten_nil, List.append_nil, differs_false_left B E hBE] at hd
    simp at hd
  | cons d rest ih =>
    intro B E en sk hBE hE hd
    rcases compare_lists E d with ⟨t, h1, h2⟩ | ⟨z, h⟩ | ⟨pre, x, y, t, r, h1, h2, h3⟩
    · have hs := Sniff_stay c d ⟨.Undetermined, B, en, sk⟩ t
        (by simp only [List.append_assoc, h1, hBE]) h2
      obtain ⟨ws, g1, g2, g3⟩ := ih (B ++ d) t en sk
        (by simp only [List.append_assoc, h1, hBE]) h2
        (by simpa [List.append_assoc] using hd)
      refine ⟨ws, ?_, ?_, g3⟩
      · rw [WriteAll_cons]
        simp only [Write]
        rw [hs]; exact g1
      · rw [g2]; simp
    · exfalso
      have : B ++ (d :: rest).flatten = signature ++ (z ++ rest.flatten) := by
        rw [List.flatten_cons, h, ← hBE]; simp
      rw [this, differs_false_right] at hd
      simp at hd
    · subst h1 h2
      obtain ⟨ws1, f1, f2, f3⟩ := Sniff_differ c pre ⟨.Undetermined, B, en, sk⟩ x y t r
        (by simpa [List.append_assoc] using hBE) h3
      obtain ⟨ws2, g1, g2, g3⟩ := WriteAll_raw c rest [] en (sk ++ ws1)
      refine ⟨ws1 ++ ws2, ?_, ?_, ?_⟩
      · rw [WriteAll_cons]
        simp only [Write]
        rw [f1]
        simp only
        rw [g1]; simp
      · rw [delivered_append, f2, g2]; simp
      · rw [endCount_append, f3, g3]

/-- Input that starts with the signature: some `Write` call completes the signature, the
    calls before it only buffer, and that call behaves as a Compressed-mode `Write` of
    the bytes that follow the signature. -/
theorem WriteAll_und_reach (c : Codec σ) (chunks : List (List Byte)) :
    ∀ (B E : List Byte) (en : σ) (sk : List StreamCall) (z : List Byte),
      B ++ E = signature → E ≠ [] → chunks.flatten = E ++ z →
      ∃ (pre : List (List Byte)) (d : List Byte) (rest : List (List Byte)) (c1 : List Byte),
        chunks = pre ++ d :: rest ∧ B ++ pre.flatten ++ d = signature ++ c1 ∧
        pre.flatten.length < E.length ∧ z = c1 ++ rest.flatten ∧
        WriteAll c ⟨.Undetermined, B, en, sk⟩ pre
          = (⟨.Undetermined, B ++ pre.flatten, en, sk⟩, none) ∧
        Write c ⟨.Undetermined, B ++ pre.flatten, en, sk⟩ d
          = Write c ⟨.Compressed, [], en, sk⟩ c1 := by
  induction chunks with
  | nil =>
    intro B E en sk z _ hE h
    simp only [List.flatten_nil] at h
    have := congrArg List.length h
    have hl := List.length_pos.2 hE
    simp at this; omega
  | cons d rest ih =>
    intro B E en sk z hBE hE h
    rw [List.flatten_cons] at h
    rcases compare_lists E d with ⟨t, h1, h2⟩ | ⟨c1, hc⟩ | ⟨p, x, y, t, r, h1, h2, h3⟩
    · have hrest : rest.flatten = t ++ z := by
        rw [← h1, List.append_assoc] at h
        exact List.append_cancel_left h
      have hs := Sniff_stay c d ⟨.Undetermined, B, en, sk⟩ t
        (by simp only [List.append_assoc, h1, hBE]) h2
      obtain ⟨pre, d1, rest1, c1, g1, g2, g3, g4, g5, g6⟩ := ih (B ++ d) t en sk z
        (by simp only [List.append_assoc, h1, hBE]) h2 hrest
      refine ⟨d :: pre, d1, rest1, c1, by rw [g1]; rfl, ?_, ?_, g4, ?_, ?_⟩
      · rw [← g2]; simp
      · rw [← h1, List.flatten_cons, List.length_append, List.length_append]; omega
      · rw [WriteAll_cons]
        simp only [Write]
        rw [hs]
        simp only
        rw [g5]; simp
      · rw [← g6]; simp
    · refine ⟨[], d, rest, c1, rfl, ?_, ?_, ?_, by simp [WriteAll], ?_⟩
      · rw [hc, ← hBE]; simp
      · simpa using List.length_pos.2 hE
      · rw [hc, List.append_assoc] at h
        exact (List.append_cancel_left h).symm
      · rw [hc]
        simp only [Write, List.flatten_nil, List.append_nil]
        exact Sniff_complete c E ⟨.Undetermined, B, en, sk⟩ c1 hBE hE
    · exfalso
      rw [h1, h2] at h
      simp only [List.append_assoc, List.cons_append] at h
      have := List.append_cancel_left h
      simp only [List.cons.injEq] at this
      exact h3 this.1

end InflateStream
namespace InflateStream

variable {σ : Type}

theorem run_none_of_step (c : Codec σ) (good : List Byte) (bad : Byte) (more : List Byte)
    (en zk : σ) (o : List Byte) (hg : c.run en good = some (zk, o))
    (hb : c.step zk bad = none) : c.run en (good ++ bad :: more) = none := by
  rw [Codec.run_append, hg]
  simp only [Codec.run_cons, hb]

/-- A run that fails has a first rejected byte. -/
theorem run_none_split (c : Codec σ) (z : List Byte) :
    ∀ en : σ, c.run en z = none →
      ∃ (good : List Byte) (bad : Byte) (more : List Byte) (zk : σ) (o : List Byte),
        z = good ++ bad :: more ∧ c.run en good = some (zk, o) ∧ c.step zk bad = none := by
  induction z with
  | nil => intro en h; simp [Codec.run] at h
  | cons b rest ih =>
    intro en h
    rw [Codec.run_cons] at h
    cases hs : c.step en b with
    | none => exact ⟨[], b, rest, en, [], rfl, rfl, hs⟩
    | some r =>
      obtain ⟨z1, o1⟩ := r
      rw [hs] at h
      simp only at h
      cases hr : c.run z1 rest with
      | some r1 => rw [hr] at h; simp at h
      | none =>
        obtain ⟨good, bad, more, zk, o, g1, g2, g3⟩ := ih z1 hr
        refine ⟨b :: good, bad, more, zk, o1 ++ o, by rw [g1]; rfl, ?_, g3⟩
        rw [Codec.run_cons, hs]
        simp only
        rw [g2]

/-- Compressed mode, malformed data: the `Write` call that receives the rejected byte is
    the one that signals `DecodeError`; the calls before it succeed. -/
theorem WriteAll_compressed_err (c : Codec σ) (chunks : List (List Byte)) :
    ∀ (bf : List Byte) (en : σ) (sk : List StreamCall) (good : List Byte) (bad : Byte)
      (more : List Byte) (zk : σ) (o : List Byte),
      c.run en good = some (zk, o) → c.step zk bad = none →
      chunks.flatten = good ++ bad :: more →
      ∃ (pre : List (List Byte)) (ch : List Byte) (post : List (List Byte))
        (s1 s2 : InflateStream σ),
        chunks = pre ++ ch :: post ∧
        WriteAll c ⟨.Compressed, bf, en, sk⟩ pre = (s1, none) ∧
        Write c s1 ch = (s2, some .DecodeError) ∧
        pre.flatten.length ≤ good.length ∧ good.length < pre.flatten.length + ch.length ∧
        ∃ ws, s2.sink = sk ++ ws ∧ endCount ws = 0 := by
  induction chunks with
  | nil =>
    intro bf en sk good bad more zk o _ _ h
    have := congrArg List.length h
    simp at this
    omega
  | cons d rest ih =>
    intro bf en sk good bad more zk o hg hb h
    rw [List.flatten_cons] at h
    have key : ∀ a1 : List Byte, good = d ++ a1 → rest.flatten = a1 ++ bad :: more →
        ∃ (pre : List (List Byte)) (ch : List Byte) (post : List (List Byte))
          (s1 s2 : InflateStream σ),
          d :: rest = pre ++ ch :: post ∧
          WriteAll c ⟨.Compressed, bf, en, sk⟩ pre = (s1, none) ∧
          Write c s1 ch = (s2, some .DecodeError) ∧
          pre.flatten.length ≤ good.length ∧ good.length < pre.flatten.length + ch.length ∧
          ∃ ws, s2.sink = sk ++ ws ∧ endCount ws = 0 := by
      intro a1 h1 h2
      rw [h1, Codec.run_append] at hg
      cases hd : c.run en d with
      | none => rw [hd] at hg; simp at hg
      | some r1 =>
        obtain ⟨z1, o1⟩ := r1
        rw [hd] at hg
        simp only at hg
        cases ha : c.run z1 a1 with
        | none => rw [ha] at hg; simp at hg
        | some r2 =>
          obtain ⟨z2, o2⟩ := r2
          rw [ha] at hg
          simp only [Option.some.injEq, Prod.mk.injEq] at hg
          obtain ⟨rfl, _⟩ := hg
          obtain ⟨ws1, f1, _, f3⟩ := Feed_ok c d ⟨.Compressed, bf, en, sk⟩ z1 o1 hd
          obtain ⟨pre, ch, post, s1, s2, g1, g2, g3, g4, g5, ws, g6, g7⟩ :=
            ih bf z1 (sk ++ ws1) a1 bad more z2 o2 ha hb h2
          refine ⟨d :: pre, ch, post, s1, s2, by rw [g1]; rfl, ?_, g3, ?_, ?_,
            ws1 ++ ws, ?_, ?_⟩
          · rw [WriteAll_cons]
            simp only [Write]
            rw [f1]
            exact g2
          · rw [h1, List.flatten_cons, List.length_append, List.length_append]; omega
          · rw [h1, List.flatten_cons, List.length_append, List.length_append]; omega
          · rw [g6, List.append_assoc]
          · rw [endCount_append, f3, g7]
    rcases List.append_eq_append_iff.1 h with ⟨a1, h1, h2⟩ | ⟨c1, h1, h2⟩
    · exact key a1 h1 h2
    · cases c1 with
      | nil =>
        exact key [] (by simpa using h1.symm) (by simpa using h2.symm)
      | cons x c2 =>
        simp only [List.cons_append, List.cons.injEq] at h2
        obtain ⟨rfl, _⟩ := h2
        have hrun : c.run en d = none := by
          rw [h1]; exact run_none_of_step c good bad c2 en zk o hg hb
        obtain ⟨s2, ws, f1, f2, f3⟩ := Feed_err c d ⟨.Compressed, bf, en, sk⟩ hrun
        refine ⟨[], d, rest, ⟨.Compressed, bf, en, sk⟩, s2, rfl, rfl, ?_, ?_, ?_,
          ws, f2, f3⟩
        · simp only [Write]; exact f1
        · simp
        · rw [h1]; simp

end InflateStream
namespace InflateStream

variable {σ : Type}

theorem create_eq (c : Codec σ) (s0 : InflateStream σ) (h : create c = .ok s0) :
    s0 = ⟨.Undetermined, [], s0.engine, []⟩ ∧ c.init = some s0.engine := by
  unfold create at h
  cases hi : c.init with
  | none => rw [hi] at h; simp at h
  | some z =>
    rw [hi] at h
    simp only [Except.ok.injEq] at h
    subst h
    exact ⟨rfl, rfl⟩

/-- The calls up to the one that completes the signature act, on any continuation, as
    one Compressed-mode `Write` of the bytes that follow the signature. -/
theorem WriteAll_transfer (c : Codec σ) (B : List Byte) (en : σ) (sk : List StreamCall)
    (pre : List (List Byte)) (d c1 : List Byte) (rest : List (List Byte))
    (h1 : WriteAll c ⟨.Undetermined, B, en, sk⟩ pre
      = (⟨.Undetermined, B ++ pre.flatten, en, sk⟩, none))
    (h2 : Write c ⟨.Undetermined, B ++ pre.flatten, en, sk⟩ d
      = Write c ⟨.Compressed, [], en, sk⟩ c1) :
    WriteAll c ⟨.Undetermined, B, en, sk⟩ (pre ++ d :: rest)
      = WriteAll c ⟨.Compressed, [], en, sk⟩ (c1 :: rest) := by
  rw [WriteAll_append, h1]
  simp only
  rw [WriteAll_cons, WriteAll_cons, h2]

/-- Signature followed by bytes the codec accepts: every `Write` succeeds, the stream is
    Compressed, and the sink has received the plaintext and no `End()`. -/
theorem WriteAll_signature_ok (c : Codec σ) (en : σ) (chunks : List (List Byte))
    (z : List Byte) (zf : σ) (out : List Byte) (hrun : c.run en z = some (zf, out))
    (hc : chunks.flatten = signature ++ z) :
    ∃ ws, WriteAll c ⟨.Undetermined, [], en, []⟩ chunks = (⟨.Compressed, [], zf, ws⟩, none) ∧
      delivered ws = out ∧ endCount ws = 0 := by
  obtain ⟨pre, d, rest, c1, g1, _, _, g4, g5, g6⟩ :=
    WriteAll_und_reach c chunks [] signature en [] z rfl (by decide) hc
  rw [g1, WriteAll_transfer c [] en [] pre d c1 rest g5 g6]
  obtain ⟨ws, h1, h2, h3⟩ := WriteAll_compressed c (c1 :: rest) [] en [] zf out
    (by rw [List.flatten_cons, ← g4]; exact hrun)
  exact ⟨ws, by simpa using h1, h2, h3⟩

/-- Signature followed by bytes of which the codec rejects one: the `Write` call whose
    chunk contains the rejected byte signals `DecodeError`, the calls before it
    succeed, and the sink never receives `End()`. -/
theorem WriteAll_signature_err (c : Codec σ) (en : σ) (chunks : List (List Byte))
    (good : List Byte) (bad : Byte) (more : List Byte) (zk : σ) (o : List Byte)
    (hgood : c.run en good = some (zk, o)) (hbad : c.step zk bad = none)
    (hc : chunks.flatten = signature ++ (good ++ bad :: more)) :
    ∃ (pre : List (List Byte)) (ch : List Byte) (post : List (List Byte))
      (s1 s2 : InflateStream σ),
      chunks = pre ++ ch :: post ∧
      WriteAll c ⟨.Undetermined, [], en, []⟩ pre = (s1, none) ∧
      Write c s1 ch = (s2, some .DecodeError) ∧
      pre.flatten.length ≤ signature.length + good.length ∧
      signature.length + good.length < pre.flatten.length + ch.length ∧
      endCount s2.sink = 0 := by
  obtain ⟨preU, d, rest, c1, g1, g2, g3, g4, g5, g6⟩ :=
    WriteAll_und_reach c chunks [] signature en [] (good ++ bad :: more) rfl (by decide) hc
  have hlen := congrArg List.length g2
  simp only [List.nil_append, List.length_append] at hlen
  obtain ⟨preC, ch, post, s1, s2, k1, k2, k3, k4, k5, ws, k6, k7⟩ :=
    WriteAll_compressed_err c (c1 :: rest) [] en [] good bad more zk o hgood hbad
      (by rw [List.flatten_cons, ← g4])
  cases preC with
  | nil =>
    simp only [List.nil_append, List.cons.injEq] at k1
    obtain ⟨rfl, rfl⟩ := k1
    rw [WriteAll_nil] at k2
    simp only [Prod.mk.injEq, and_true] at k2
    subst k2
    simp only [List.flatten_nil, List.length_nil, Nat.zero_add] at k4 k5
    refine ⟨preU, d, rest, _, s2, g1, g5, by rw [g6]; exact k3, by omega, by omega, ?_⟩
    rw [k6, endCount_append, k7]; rfl
  | cons x preC1 =>
    simp only [List.cons_append, List.cons.injEq] at k1
    obtain ⟨rfl, rfl⟩ := k1
    simp only [List.flatten_cons, List.length_append] at k4 k5
    refine ⟨preU ++ d :: preC1, ch, post, s1, s2, by rw [g1]; simp, ?_, k3, ?_, ?_, ?_⟩
    · rw [WriteAll_transfer c [] en [] preU d c1 preC1 g5 g6]; exact k2
    · simp only [List.flatten_append, List.flatten_cons, List.length_append]; omega
    · simp only [List.flatten_append, List.flatten_cons, List.length_append]; omega
    · rw [k6, endCount_append, k7]; rfl

/-- Input that differs from the signature: all `Write` calls and `End()` succeed, the
    sink holds the input followed by one `End()`. -/
theorem WriteAllAndEnd_raw (c : Codec σ) (en : σ) (chunks : List (List Byte))
    (hd : differsFromSignature chunks.flatten = true) :
    ∃ ws, WriteAllAndEnd c ⟨.Undetermined, [], en, []⟩ chunks
        = (⟨.Finished, [], en, ws ++ [.finish]⟩, none) ∧
      delivered ws = chunks.flatten ∧ endCount ws = 0 := by
  obtain ⟨ws, h1, h2, h3⟩ :=
    WriteAll_und_raw c chunks [] signature en [] rfl (by decide) (by simpa using hd)
  refine ⟨ws, ?_, by simpa using h2, h3⟩
  rw [WriteAllAndEnd, h1]
  simp [End]

end InflateStream
/-! ## InflateStream: the claims -/

/-- C1. For every byte sequence that differs from the 12-byte signature at some offset
    below 12, and every way of splitting it into consecutive `Write` calls on a fresh
    stream followed by `End()`: no error is raised, the bytes delivered to the sink are
    exactly the input bytes in order, and the sink is ended (once, as the last call). -/
theorem raw_passthrough {σ : Type} (c : Codec σ) (s0 : InflateStream σ)
    (hs : InflateStream.create c = .ok s0) (input : List Byte)
    (hd : differsFromSignature input = true)
    (chunks : List (List Byte)) (hc : chunks.flatten = input) :
    ∃ (sf : InflateStream σ) (ws : List StreamCall),
      InflateStream.WriteAllAndEnd c s0 chunks = (sf, none) ∧
      sf.sink = ws ++ [.finish] ∧ delivered ws = input ∧ endCount ws = 0 ∧
      delivered sf.sink = input ∧ endCount sf.sink = 1 := by
  obtain ⟨h0, _⟩ := InflateStream.create_eq c s0 hs
  subst hc
  obtain ⟨ws, h1, h2, h3⟩ := InflateStream.WriteAllAndEnd_raw c s0.engine chunks hd
  rw [h0]
  refine ⟨_, ws, h1, rfl, h2, h3, ?_, ?_⟩
  · simp [delivered_append, h2, delivered]
  · simp [endCount_append, h3, endCount]

/-- Witness for C1: the test `LongRaw`, one `Write` per byte. -/
theorem raw_passthrough_witness :
    ∃ (sf : InflateStream Zlib.State) (ws : List StreamCall),
      InflateStream.WriteAllAndEnd Zlib.codec freshZlibStream
        (oneByOne (ascii "hello, world! blah blah blah")) = (sf, none) ∧
      sf.sink = ws ++ [.finish] ∧ delivered ws = ascii "hello, world! blah blah blah" ∧
      endCount ws = 0 ∧
      delivered sf.sink = ascii "hello, world! blah blah blah" ∧ endCount sf.sink = 1 :=
  raw_passthrough Zlib.codec freshZlibStream rfl (ascii "hello, world! blah blah blah")
    (by decide!) (oneByOne (ascii "hello, world! blah blah blah")) (by decide!)

/-- C3. For every plaintext `p` and every input made of the signature followed by bytes
    that the codec decodes to `p` while reporting its end-of-stream, under any chunking
    into `Write` calls followed by `End()`: no error is raised, the sink receives exactly
    `p`, and then `End()` once, after all output. -/
theorem compressed_roundtrip {σ : Type} (c : Codec σ) (s0 : InflateStream σ)
    (hs : InflateStream.create c = .ok s0) (z p : List Byte) (zf : σ)
    (hrun : c.run s0.engine z = some (zf, p)) (hend : c.atEnd zf = true)
    (chunks : List (List Byte)) (hc : chunks.flatten = signature ++ z) :
    ∃ (sf : InflateStream σ) (ws : List StreamCall),
      InflateStream.WriteAllAndEnd c s0 chunks = (sf, none) ∧
      sf.sink = ws ++ [.finish] ∧ delivered ws = p ∧ endCount ws = 0 ∧
      delivered sf.sink = p ∧ endCount sf.sink = 1 := by
  obtain ⟨h0, _⟩ := InflateStream.create_eq c s0 hs
  obtain ⟨ws, h1, h2, h3⟩ :=
    InflateStream.WriteAll_signature_ok c s0.engine chunks z zf p hrun hc
  rw [h0]
  refine ⟨⟨.Finished, [], zf, ws ++ [.finish]⟩, ws, ?_, rfl, h2, h3, ?_, ?_⟩
  · rw [InflateStream.WriteAllAndEnd, h1]
    simp [InflateStream.End, hend]
  · simp [delivered_append, h2, delivered]
  · simp [endCount_append, h3, endCount]

/-- Witness for C3: the byte arrays of `DecompressHelloWorld` and `DecompressEmpty`, the
    first written one byte per call and also in a single call, the second one byte per
    call. -/
theorem compressed_roundtrip_witness :
    (∃ (sf : InflateStream Zlib.State) (ws : List StreamCall),
      InflateStream.WriteAllAndEnd Zlib.codec freshZlibStream
        (oneByOne (signature ++ helloWorldDeflate)) = (sf, none) ∧
      sf.sink = ws ++ [.finish] ∧ delivered ws = ascii "Hello, world!" ∧ endCount ws = 0 ∧
      delivered sf.sink = ascii "Hello, world!" ∧ endCount sf.sink = 1) ∧
    (∃ (sf : InflateStream Zlib.State) (ws : List StreamCall),
      InflateStream.WriteAllAndEnd Zlib.codec freshZlibStream
        [signature ++ helloWorldDeflate] = (sf, none) ∧
      sf.sink = ws ++ [.finish] ∧ delivered ws = ascii "Hello, world!" ∧ endCount ws = 0 ∧
      delivered sf.sink = ascii "Hello, world!" ∧ endCount sf.sink = 1) ∧
    (∃ (sf : InflateStream Zlib.State) (ws : List StreamCall),
      InflateStream.WriteAllAndEnd Zlib.codec freshZlibStream
        (oneByOne (signature ++ emptyDeflate)) = (sf, none) ∧
      sf.sink = ws ++ [.finish] ∧ delivered ws = ascii "" ∧ endCount ws = 0 ∧
      delivered sf.sink = ascii "" ∧ endCount sf.sink = 1) :=
  ⟨compressed_roundtrip Zlib.codec freshZlibStream rfl helloWorldDeflate
      (ascii "Hello, world!") ⟨helloWorldDeflate, 13, true⟩ (by decide!) rfl
      (oneByOne (signature ++ helloWorldDeflate)) (by decide!),
    compressed_roundtrip Zlib.codec freshZlibStream rfl helloWorldDeflate
      (ascii "Hello, world!") ⟨helloWorldDeflate, 13, true⟩ (by decide!) rfl
      [signature ++ helloWorldDeflate] (by decide!),
    compressed_roundtrip Zlib.codec freshZlibStream rfl emptyDeflate
      (ascii "") ⟨emptyDeflate, 0, true⟩ (by decide!) rfl
      (oneByOne (signature ++ emptyDeflate)) (by decide!)⟩

/-- C4. For every input made of the signature followed by a proper beginning `z` of a
    stream `z ++ t` that the codec decodes to its end-of-stream, the codec not having
    reported end-of-stream after `z`: under any chunking all `Write` calls succeed, the
    subsequent `End()` raises `TruncatedStreamError`, and the sink never receives
    `End()`. -/
theorem truncated_End_throws {σ : Type} (c : Codec σ) (s0 : InflateStream σ)
    (hs : InflateStream.create c = .ok s0) (z : List Byte)
    (hvalid : ∃ (t p : List Byte) (zf : σ),
      t ≠ [] ∧ c.run s0.engine (z ++ t) = some (zf, p) ∧ c.atEnd zf = true)
    (hnot : ∀ zs out, c.run s0.engine z = some (zs, out) → c.atEnd zs = false)
    (chunks : List (List Byte)) (hc : chunks.flatten = signature ++ z) :
    ∃ (s1 sf : InflateStream σ),
      InflateStream.WriteAll c s0 chunks = (s1, none) ∧
      InflateStream.End c s1 = (sf, some .TruncatedStreamError) ∧
      InflateStream.WriteAllAndEnd c s0 chunks = (sf, some .TruncatedStreamError) ∧
      endCount sf.sink = 0 := by
  obtain ⟨h0, _⟩ := InflateStream.create_eq c s0 hs
  obtain ⟨t, p, zf, _, hvalid, _⟩ := hvalid
  rw [Codec.run_append] at hvalid
  cases hz : c.run s0.engine z with
  | none => rw [hz] at hvalid; simp at hvalid
  | some r =>
    obtain ⟨zs, out⟩ := r
    have hne := hnot zs out hz
    obtain ⟨ws, h1, _, h3⟩ :=
      InflateStream.WriteAll_signature_ok c s0.engine chunks z zs out hz hc
    rw [h0]
    refine ⟨⟨.Compressed, [], zs, ws⟩, ⟨.Failed, [], zs, ws⟩, h1, ?_, ?_, h3⟩
    · simp [InflateStream.End, hne]
    · rw [InflateStream.WriteAllAndEnd, h1]
      simp [InflateStream.End, hne]

/-- Witness for C4: the test `ThrowsIfCompressedDataIsIncomplete`, the encoding of the
    empty string without its last byte, in a single `Write`. -/
theorem truncated_End_throws_witness :
    ∃ (s1 sf : InflateStream Zlib.State),
      InflateStream.WriteAll Zlib.codec freshZlibStream [signature ++ incompleteDeflate]
        = (s1, none) ∧
      InflateStream.End Zlib.codec s1 = (sf, some .TruncatedStreamError) ∧
      InflateStream.WriteAllAndEnd Zlib.codec freshZlibStream
        [signature ++ incompleteDeflate] = (sf, some .TruncatedStreamError) ∧
      endCount sf.sink = 0 :=
  truncated_End_throws Zlib.codec freshZlibStream rfl incompleteDeflate
    ⟨[0x01], [], ⟨emptyDeflate, 0, true⟩, by decide, by decide!, rfl⟩
    (by
      intro zs out h
      have h1 : Zlib.codec.run freshZlibStream.engine incompleteDeflate
          = some (⟨incompleteDeflate, 0, false⟩, []) := by decide!
      rw [h1] at h
      simp only [Option.some.injEq, Prod.mk.injEq] at h
      rw [← h.1]; rfl)
    [signature ++ incompleteDeflate] (by decide!)

/-- C5. For every input made of the signature followed by bytes `z` that the codec
    rejects as malformed, under any chunking: `z` splits as `good ++ bad :: more`, where
    the codec accepts `good` and rejects the byte `bad`; the `Write` calls before the one
    whose chunk contains `bad` succeed, that `Write` call itself raises `DecodeError`, so
    `End()` is never reached, and the sink never receives `End()`. -/
theorem malformed_Write_throws {σ : Type} (c : Codec σ) (s0 : InflateStream σ)
    (hs : InflateStream.create c = .ok s0) (z : List Byte)
    (hrej : c.run s0.engine z = none)
    (chunks : List (List Byte)) (hc : chunks.flatten = signature ++ z) :
    ∃ (good : List Byte) (bad : Byte) (more : List Byte) (zk : σ) (o : List Byte),
      z = good ++ bad :: more ∧ c.run s0.engine good = some (zk, o) ∧
      c.step zk bad = none ∧
      ∃ (pre : List (List Byte)) (ch : List Byte) (post : List (List Byte))
        (s1 s2 : InflateStream σ),
        chunks = pre ++ ch :: post ∧
        InflateStream.WriteAll c s0 pre = (s1, none) ∧
        InflateStream.Write c s1 ch = (s2, some .DecodeError) ∧
        pre.flatten.length ≤ signature.length + good.length ∧
        signature.length + good.length < pre.flatten.length + ch.length ∧
        InflateStream.WriteAllAndEnd c s0 chunks = (s2, some .DecodeError) ∧
        endCount s2.sink = 0 := by
  obtain ⟨h0, _⟩ := InflateStream.create_eq c s0 hs
  obtain ⟨good, bad, more, zk, o, hz, hgood, hbad⟩ :=
    InflateStream.run_none_split c z s0.engine hrej
  obtain ⟨pre, ch, post, s1, s2, g1, g2, g3, g4, g5, g6⟩ :=
    InflateStream.WriteAll_signature_err c s0.engine chunks good bad more zk o hgood hbad
      (by rw [hc, hz])
  refine ⟨good, bad, more, zk, o, hz, hgood, hbad, ?_⟩
  rw [h0]
  refine ⟨pre, ch, post, s1, s2, g1, g2, g3, g4, g5, ?_, g6⟩
  rw [InflateStream.WriteAllAndEnd, g1, InflateStream.WriteAll_append, g2]
  simp only
  rw [InflateStream.WriteAll_cons, g3]

/-- Witness for C5: the test `ThrowsIfCompressedDataIsInvalid`, a single `Write` of the
    signature followed by `hodor` (the reference engine rejects the second byte, `o`, at
    the header check). -/
theorem malformed_Write_throws_witness :
    ∃ (good : List Byte) (bad : Byte) (more : List Byte) (zk : Zlib.State) (o : List Byte),
      ascii "hodor" = good ++ bad :: more ∧
      Zlib.codec.run freshZlibStream.engine good = some (zk, o) ∧
      Zlib.codec.step zk bad = none ∧
      ∃ (pre : List (List Byte)) (ch : List Byte) (post : List (List Byte))
        (s1 s2 : InflateStream Zlib.State),
        [signature ++ ascii "hodor"] = pre ++ ch :: post ∧
        InflateStream.WriteAll Zlib.codec freshZlibStream pre = (s1, none) ∧
        InflateStream.Write Zlib.codec s1 ch = (s2, some .DecodeError) ∧
        pre.flatten.length ≤ signature.length + good.length ∧
        signature.length + good.length < pre.flatten.length + ch.length ∧
        InflateStream.WriteAllAndEnd Zlib.codec freshZlibStream
          [signature ++ ascii "hodor"] = (s2, some .DecodeError) ∧
        endCount s2.sink = 0 :=
  malformed_Write_throws Zlib.codec freshZlibStream rfl (ascii "hodor") (by decide!)
    [signature ++ ascii "hodor"] (by decide!)

end BigFix
